import Mathlib

/-!
Verification of the SecureAI-Scan rule-evaluation and finding-lifecycle core.

This file shallowly embeds the scanner core of the repository:
the confidence scorer (`src/scanner/confidence.ts`), the deduplicator and
ignore-annotation resolver (`src/scanner/scan.ts`), the baseline differ
(`src/scanner/baseline.ts`), and the AI001 / AI003 rules
(`src/scanner/rules/prompt-injection-concat.ts`, `llm-before-auth.ts`)
over a small model of the ts-morph syntax tree.

Modelling conventions:
- JavaScript numbers that hold confidence scores are modelled as `ℚ`.
- JavaScript strings are Lean `String`s; `String.prototype.toLowerCase`,
  `trim`, `includes`, `toUpperCase` are re-implemented on ASCII below.
- `Map`/`Set` objects are modelled as association lists / membership lists;
  `Map.prototype.set` replaces the first entry with the key in place.
- Mutation of the `consumed` flag on ignore directives is modelled by
  explicit state passing (the directive map is threaded through the
  resolver and returned).
-/

/-! ## String helpers (models of the JS string primitives used) -/

/-- Model of the JS `\s` character class for the characters that can occur
in ASCII source lines. -/
def jsIsSpace (c : Char) : Bool :=
  c = ' ' || c = '\t' || c = '\n' || c = '\r' || c = '\x0b' || c = '\x0c'

/-- Model of `String.prototype.trim`. -/
def jsTrim (s : String) : String :=
  ⟨((s.data.dropWhile jsIsSpace).reverse.dropWhile jsIsSpace).reverse⟩

/-- Model of `String.prototype.toLowerCase` (ASCII). -/
def strLower (s : String) : String := ⟨s.data.map Char.toLower⟩

/-- Model of `String.prototype.toUpperCase` (ASCII). -/
def strUpper (s : String) : String := ⟨s.data.map Char.toUpper⟩

/-- `listContains hay pat`: `pat` occurs as a contiguous sublist of `hay`. -/
def listContains (hay pat : List Char) : Bool :=
  if pat.isPrefixOf hay then true
  else
    match hay with
    | [] => false
    | _ :: t => listContains t pat

/-- Model of `String.prototype.includes`. -/
def strContains (s pat : String) : Bool := listContains s.data pat.data

/-- Suffix test on the character list (model of a `...$`-anchored regex). -/
def strEndsWith (s suffix : String) : Bool := suffix.data.isSuffixOf s.data

/-- Drop the last `n` characters. -/
def strDropRight (s : String) (n : Nat) : String := ⟨s.data.take (s.data.length - n)⟩

/-- Prefix test on the character list (model of `String.prototype.startsWith`). -/
def strStartsWith (s pre : String) : Bool := pre.data.isPrefixOf s.data

/-- Lexicographic comparison of character lists (string order standing in
for `String.prototype.localeCompare` in the sort comparators). -/
def charsLt : List Char → List Char → Bool
  | [], [] => false
  | [], _ :: _ => true
  | _ :: _, [] => false
  | a :: as, b :: bs => if a < b then true else if b < a then false else charsLt as bs

/-- Comparator order on strings via `charsLt`. -/
def strKeyLt (a b : String) : Bool := charsLt a.data b.data

/-! ## Finding data model (`src/scanner/types.ts`) -/

/-- `Severity` from `types.ts`. -/
inductive Severity where
  | low
  | medium
  | high
  | critical
deriving DecidableEq, Repr

/-- `Finding` from `types.ts`; `confidence` is modelled as `ℚ`. -/
structure Finding where
  rule_id : String
  title : String
  severity : Severity
  file : String
  line : Nat
  summary : String
  description : String
  recommendation : String
  confidence : ℚ
deriving DecidableEq, Repr

/-- `IgnoredFinding` from `scan.ts`. -/
structure IgnoredFinding where
  finding : Finding
  reason : String
  annotationLine : Nat
deriving DecidableEq, Repr

/-! ## Syntax-tree model

A small model of the ts-morph nodes the rules inspect.  Each constructor
carries the 1-based source line (`getNodeLine`).  The four function-like
kinds (declaration, expression, arrow, method) are collapsed into the
single `func` constructor because every rule treats them identically;
parameter default initializers are not modelled.  The `other` constructor
stands for every node kind the rules do not distinguish. -/

inductive Node where
  /-- Identifier; `name` is its text. -/
  | ident (line : Nat) (name : String)
  /-- String literal; `raw` is its source text including the quotes. -/
  | strLit (line : Nat) (raw : String)
  /-- PropertyAssignment inside an object literal: name node and initializer. -/
  | propAssign (line : Nat) (nameNode : Node) (init : Node)
  /-- ObjectLiteralExpression; `props` hold `propAssign` or `other` nodes. -/
  | objectLit (line : Nat) (props : List Node)
  /-- ArrayLiteralExpression. -/
  | arrayLit (line : Nat) (elems : List Node)
  /-- BinaryExpression; `op` is the operator token text (`"+"` for PlusToken). -/
  | binaryExpr (line : Nat) (op : String) (lhs rhs : Node)
  /-- TemplateExpression with substitutions; `chunks` are the literal text
  pieces, `parts` the substitution expressions. -/
  | templateExpr (line : Nat) (chunks : List String) (parts : List Node)
  /-- NoSubstitutionTemplateLiteral; `raw` is its source text. -/
  | noSubTemplate (line : Nat) (raw : String)
  /-- CallExpression; `callee` is `getExpression()`. -/
  | callExpr (line : Nat) (callee : Node) (args : List Node)
  /-- PropertyAccessExpression; `obj` is `getExpression()`, `name` the
  accessed property name text. -/
  | propAccess (line : Nat) (obj : Node) (name : String)
  /-- Function-like node (declaration / expression / arrow / method);
  `params` are the parameter name texts, `body` the statements. -/
  | func (line : Nat) (params : List String) (body : List Node)
  /-- VariableDeclaration with name text and optional initializer. -/
  | varDecl (line : Nat) (name : String) (init : Option Node)
  /-- Any other node kind; `text` is its source text. -/
  | other (line : Nat) (text : String) (children : List Node)

/-- Source line of a node (`getNodeLine` in `utils/ast.ts`). -/
def Node.nodeLine : Node → Nat
  | .ident line _ => line
  | .strLit line _ => line
  | .propAssign line _ _ => line
  | .objectLit line _ => line
  | .arrayLit line _ => line
  | .binaryExpr line _ _ _ => line
  | .templateExpr line _ _ => line
  | .noSubTemplate line _ => line
  | .callExpr line _ _ => line
  | .propAccess line _ _ => line
  | .func line _ _ => line
  | .varDecl line _ _ => line
  | .other line _ _ => line

/-- Intersperse for rendering argument lists. -/
def joinWith (sep : String) : List String → String
  | [] => ""
  | [s] => s
  | s :: rest => s ++ sep ++ joinWith sep rest

mutual

/-- Model of `getText()`: a rendering of the node as source text
(whitespace-normalized; substring checks in the rules only use
alphanumeric patterns, which this rendering preserves). -/
def Node.getText : Node → String
  | .ident _ name => name
  | .strLit _ raw => raw
  | .propAssign _ nameNode init => nameNode.getText ++ ": " ++ init.getText
  | .objectLit _ props => "\x7b " ++ joinWith ", " (textList props) ++ " \x7d"
  | .arrayLit _ elems => "[" ++ joinWith ", " (textList elems) ++ "]"
  | .binaryExpr _ op lhs rhs => lhs.getText ++ " " ++ op ++ " " ++ rhs.getText
  | .templateExpr _ chunks parts => "`" ++ templateText chunks parts ++ "`"
  | .noSubTemplate _ raw => raw
  | .callExpr _ callee args => callee.getText ++ "(" ++ joinWith ", " (textList args) ++ ")"
  | .propAccess _ obj name => obj.getText ++ "." ++ name
  | .func _ params body =>
      "function (" ++ joinWith ", " params ++ ") " ++ joinWith "; " (textList body)
  | .varDecl _ name init =>
      match init with
      | some e => name ++ " = " ++ e.getText
      | none => name
  | .other _ text _ => text
termination_by structural n => n

/-- Texts of a list of nodes. -/
def textList : List Node → List String
  | [] => []
  | n :: rest => n.getText :: textList rest
termination_by structural l => l

/-- Interleaved rendering of a template expression: the chunk before each
substitution, then the substitution, then the remaining chunks. -/
def templateText : List String → List Node → String
  | chunks, [] => String.join chunks
  | chunks, n :: rest =>
      chunks.headD "" ++ "$\x7b" ++ n.getText ++ "\x7d" ++ templateText chunks.tail rest
termination_by structural _ l => l

end

mutual

/-- Model of `node.getDescendants()` in depth-first pre-order (the node
itself excluded), matching the ts-morph traversal. -/
def Node.descendants : Node → List Node
  | .ident _ _ => []
  | .strLit _ _ => []
  | .propAssign _ nameNode init =>
      (nameNode :: nameNode.descendants) ++ (init :: init.descendants)
  | .objectLit _ props => descList props
  | .arrayLit _ elems => descList elems
  | .binaryExpr _ _ lhs rhs =>
      (lhs :: lhs.descendants) ++ (rhs :: rhs.descendants)
  | .templateExpr _ _ parts => descList parts
  | .noSubTemplate _ _ => []
  | .callExpr _ callee args =>
      (callee :: callee.descendants) ++ descList args
  | .propAccess _ obj _ => obj :: obj.descendants
  | .func _ _ body => descList body
  | .varDecl _ _ init =>
      match init with
      | some e => e :: e.descendants
      | none => []
  | .other _ _ children => descList children
termination_by structural n => n

/-- Pre-order listing of a forest: each node followed by its descendants. -/
def descList : List Node → List Node
  | [] => []
  | n :: rest => n :: n.descendants ++ descList rest
termination_by structural l => l

end

/-! Node kind predicates (`Node.isCallExpression` etc. from ts-morph). -/

def Node.isCallExpression : Node → Bool
  | .callExpr _ _ _ => true
  | _ => false

def Node.isIdentifier : Node → Bool
  | .ident _ _ => true
  | _ => false

def Node.isObjectLiteralExpression : Node → Bool
  | .objectLit _ _ => true
  | _ => false

def Node.isPropertyAssignment : Node → Bool
  | .propAssign _ _ _ => true
  | _ => false

def Node.isPropertyAccessExpression : Node → Bool
  | .propAccess _ _ _ => true
  | _ => false

def Node.isVariableDeclaration : Node → Bool
  | .varDecl _ _ _ => true
  | _ => false

def Node.isFunctionLike : Node → Bool
  | .func _ _ _ => true
  | _ => false

/-- `getDescendantsOfKind` specialized by a kind predicate. -/
def Node.descOfKind (n : Node) (p : Node → Bool) : List Node :=
  n.descendants.filter p

/-! ## Source units and scan context -/

/-- A parsed source file as handed to the rules: its (absolute) file path,
its raw text lines (`getFullText().split(/\r?\n/)`), and its statements. -/
structure SourceUnit where
  filePath : String
  textLines : List String
  stmts : List Node

/-- `sourceFile.getDescendants()`. -/
def SourceUnit.descendants (u : SourceUnit) : List Node := descList u.stmts

/-- The `RuleContext` handed to each rule (`types.ts`), minus the ts-morph
project handle. -/
structure ScanContext where
  rootPath : String
  sourceFiles : List SourceUnit

/-- Model of `getRelativeFilePath` (`path.relative(rootPath, filePath)`)
for the case where the file lives under the root. -/
def relPath (root p : String) : String :=
  if (root ++ "/").data.isPrefixOf p.data then ⟨p.data.drop (root.length + 1)⟩ else p

/-! ## Confidence scorer (`src/scanner/confidence.ts`) -/

/-- Model of `Number(x.toFixed(2))`: round to two decimal places, ties
toward the larger value (ECMA `toFixed`). -/
def jsToFixed2 (q : ℚ) : ℚ := (⌊q * 100 + 1 / 2⌋ : ℚ) / 100

/-- Model of `Math.min` on two rationals. -/
def jsMin (a b : ℚ) : ℚ := if a ≤ b then a else b

/-- `calculateConfidence` from `confidence.ts`: additive contributions
0.3 / 0.3 / 0.2 / 0.2, rounded via `toFixed(2)`, capped at 1. -/
def calculateConfidence (directUserInput stringConcatOrTemplate requestObjectSource
    confirmedLlmCall : Bool) : ℚ :=
  let score : ℚ :=
    (if directUserInput then 3 / 10 else 0)
    + (if stringConcatOrTemplate then 3 / 10 else 0)
    + (if requestObjectSource then 2 / 10 else 0)
    + (if confirmedLlmCall then 2 / 10 else 0)
  jsMin 1 (jsToFixed2 score)

/-! ## Deduplicator (`dedupeFindings` and `normalizeFileKey` in `scan.ts`) -/

/-- `normalizeFileKey`: backslashes to slashes, lowercase, then strip a
trailing `.ts`/`.tsx`/`.js`/`.jsx` extension. -/
def normalizeFileKey (filePath : String) : String :=
  let normalized := strLower ⟨filePath.data.map fun c => if c = '\\' then '/' else c⟩
  if strEndsWith normalized ".tsx" then strDropRight normalized 4
  else if strEndsWith normalized ".jsx" then strDropRight normalized 4
  else if strEndsWith normalized ".ts" then strDropRight normalized 3
  else if strEndsWith normalized ".js" then strDropRight normalized 3
  else normalized

/-- The dedupe key: `[rule_id, fileKey, line, summary].join("|")`. -/
def dedupeKey (f : Finding) : String :=
  f.rule_id ++ "|" ++ normalizeFileKey f.file ++ "|" ++ toString f.line ++ "|" ++ f.summary

/-- The loop of `dedupeFindings`, with the `seen` set made explicit. -/
def dedupeGo (seen : List String) : List Finding → List Finding
  | [] => []
  | f :: rest =>
      let key := dedupeKey f
      if seen.contains key then dedupeGo seen rest
      else f :: dedupeGo (key :: seen) rest

/-- `dedupeFindings` from `scan.ts`. -/
def dedupeFindings (findings : List Finding) : List Finding := dedupeGo [] findings

/-! ## Rule AI001 (`src/scanner/rules/prompt-injection-concat.ts`) -/

/-- The shared LLM callee vocabulary. -/
def LLM_CALLEE_PATTERNS : List String := ["openai", "anthropic", "google", "gemini", "genai"]

/-- `isLikelyLlmCall`: callee text (lowercased) contains an SDK substring. -/
def isLikelyLlmCall (n : Node) : Bool :=
  match n with
  | .callExpr _ callee _ =>
      let expressionText := strLower callee.getText
      LLM_CALLEE_PATTERNS.any fun pattern => strContains expressionText pattern
  | _ => false

/-- `prop.getNameNode().getText().replace(/['"]/g, "")`. -/
def stripQuotes (s : String) : String :=
  ⟨s.data.filter fun c => !(c = '\'' || c = '"')⟩

/-- Initializer of a `propAssign` node (`getInitializerOrThrow`). -/
def Node.propInit : Node → Option Node
  | .propAssign _ _ init => some init
  | _ => none

/-- Name-node text of a `propAssign` node (`getNameNode().getText()`). -/
def Node.propNameText : Node → Option String
  | .propAssign _ nameNode _ => some nameNode.getText
  | _ => none

/-- `getPromptArguments` from `prompt-injection-concat.ts`: the first
argument, or the `prompt` property of an object-literal first argument. -/
def getPromptArguments (n : Node) : List Node :=
  match n with
  | .callExpr _ _ args =>
      match args with
      | [] => []
      | firstArg :: _ =>
          match firstArg with
          | .objectLit _ props =>
              match props.find? (fun prop =>
                  prop.isPropertyAssignment
                    && (prop.propNameText.map stripQuotes == some "prompt")) with
              | some prop =>
                  match prop.propInit with
                  | some init => [init]
                  | none => []
              | none => []
          | _ => [firstArg]
  | _ => []

/-- `isTemplateLiteral`: TemplateExpression or NoSubstitutionTemplateLiteral. -/
def isTemplateLiteral : Node → Bool
  | .templateExpr _ _ _ => true
  | .noSubTemplate _ _ => true
  | _ => false

/-- `isStringConcatenation` from `utils/ast.ts`: a BinaryExpression whose
operator token is PlusToken. -/
def isStringConcatenation : Node → Bool
  | .binaryExpr _ op _ _ => op = "+"
  | _ => false

/-- `isRequestObjectAccess`: a property access whose root expression is the
identifier `req`/`request`, or `ctx` with full text starting `ctx.request`. -/
def isRequestObjectAccess (n : Node) : Bool :=
  match n with
  | .propAccess _ root _ =>
      match root with
      | .ident _ rootName =>
          let rootName := strLower rootName
          if rootName = "req" || rootName = "request" then true
          else if rootName = "ctx" then
            strStartsWith (strLower n.getText) "ctx.request"
          else false
      | _ => false
  | _ => false

/-- The three taint sets of `collectTaintedIdentifiers`. -/
structure TaintInfo where
  tainted : List String
  fromParams : List String
  fromRequest : List String

/-- The propagation loop over variable declarations (source order). -/
def taintLoop (acc : TaintInfo) : List Node → TaintInfo
  | [] => acc
  | decl :: rest =>
      match decl with
      | .varDecl _ name init =>
          match init with
          | none => taintLoop acc rest
          | some initializer =>
              match initializer with
              | .ident _ initName =>
                  if acc.tainted.contains initName then
                    taintLoop
                      { tainted := acc.tainted.insert name
                        fromParams :=
                          if acc.fromParams.contains initName then
                            acc.fromParams.insert name
                          else acc.fromParams
                        fromRequest :=
                          if acc.fromRequest.contains initName then
                            acc.fromRequest.insert name
                          else acc.fromRequest } rest
                  else if isRequestObjectAccess initializer then
                    taintLoop
                      { tainted := acc.tainted.insert name
                        fromParams := acc.fromParams
                        fromRequest := acc.fromRequest.insert name } rest
                  else taintLoop acc rest
              | _ =>
                  if isRequestObjectAccess initializer then
                    taintLoop
                      { tainted := acc.tainted.insert name
                        fromParams := acc.fromParams
                        fromRequest := acc.fromRequest.insert name } rest
                  else taintLoop acc rest
      | _ => taintLoop acc rest

/-- `collectTaintedIdentifiers`: parameters seed the sets, then a single
pass over the variable declarations propagates. -/
def collectTaintedIdentifiers (n : Node) : TaintInfo :=
  let seeded : TaintInfo :=
    match n with
    | .func _ params _ =>
        { tainted := params, fromParams := params, fromRequest := [] }
    | _ => { tainted := [], fromParams := [], fromRequest := [] }
  taintLoop seeded (n.descOfKind Node.isVariableDeclaration)

/-- `promptContainsTaintedIdentifiers`. -/
def promptContainsTaintedIdentifiers (promptNode : Node) (tainted : List String) : Bool :=
  (promptNode.descOfKind Node.isIdentifier).any fun id =>
    match id with
    | .ident _ name => tainted.contains name
    | _ => false

/-- Identifier texts of the descendants of a node. -/
def argIdentifierTexts (n : Node) : List String :=
  (n.descOfKind Node.isIdentifier).filterMap fun id =>
    match id with
    | .ident _ name => some name
    | _ => none

/-- The finding AI001 pushes for a qualifying prompt argument. -/
def mkAI001Finding (file : String) (arg : Node) (hasParamInput hasRequestInput : Bool) :
    Finding :=
  { rule_id := "AI001"
    title := "Prompt injection via user input"
    severity := .high
    file := file
    line := arg.nodeLine
    summary := "User input is concatenated into a prompt."
    description := "User input flows directly into LLM prompt"
    recommendation := "Use role separation and input encoding"
    confidence := calculateConfidence hasParamInput true hasRequestInput true }

/-- The per-call body of AI001's inner loop. -/
def ai001CallFindings (file : String) (taintedInfo : TaintInfo) (call : Node) :
    List Finding :=
  if isLikelyLlmCall call then
    (getPromptArguments call).filterMap fun arg =>
      if !(isStringConcatenation arg) && !(isTemplateLiteral arg) then none
      else if !(promptContainsTaintedIdentifiers arg taintedInfo.tainted) then none
      else
        let identifiers := argIdentifierTexts arg
        let hasParamInput := identifiers.any fun id => taintedInfo.fromParams.contains id
        let hasRequestInput := identifiers.any fun id => taintedInfo.fromRequest.contains id
        some (mkAI001Finding file arg hasParamInput hasRequestInput)
  else []

/-- `rulePromptInjectionConcat.run`. -/
def rulePromptInjectionConcatRun (context : ScanContext) : List Finding :=
  context.sourceFiles.flatMap fun sourceFile =>
    (sourceFile.descendants.filter Node.isFunctionLike).flatMap fun functionNode =>
      let taintedInfo := collectTaintedIdentifiers functionNode
      if taintedInfo.tainted.isEmpty then []
      else
        (functionNode.descOfKind Node.isCallExpression).flatMap fun call =>
          ai001CallFindings (relPath context.rootPath sourceFile.filePath)
            taintedInfo call

/-! ## Rule AI003 (`src/scanner/rules/llm-before-auth.ts`) -/

/-- The auth-name vocabulary. -/
def AUTH_FUNCTIONS : List String := ["auth", "isauthenticated", "requireauth"]

/-- `isAuthCall`: callee text contains an auth-vocabulary substring. -/
def isAuthCall (n : Node) : Bool :=
  match n with
  | .callExpr _ callee _ =>
      let expressionText := strLower callee.getText
      AUTH_FUNCTIONS.any fun name => strContains expressionText name
  | _ => false

/-- `isRequestHandler`: a function-like node with a parameter named
`req`/`request`/`ctx` (case-insensitive). -/
def isRequestHandler (n : Node) : Bool :=
  match n with
  | .func _ params _ =>
      params.any fun param =>
        let name := strLower param
        name = "req" || name = "request" || name = "ctx"
  | _ => false

/-- The finding AI003 pushes for an unauthenticated LLM call. -/
def mkAI003Finding (file : String) (call : Node) : Finding :=
  { rule_id := "AI003"
    title := "LLM call before authentication"
    severity := .critical
    file := file
    line := call.nodeLine
    summary := "LLM call occurs before auth checks."
    description := "LLM call occurs in a request handler before authentication checks."
    recommendation :=
      "Ensure authentication/authorization runs before invoking LLMs in request handlers."
    confidence := calculateConfidence false false true true }

/-- The per-handler walk of AI003: calls in source order, with the
monotone `authSeen` flag. -/
def authWalk (file : String) (authSeen : Bool) : List Node → List Finding
  | [] => []
  | call :: rest =>
      if isAuthCall call then authWalk file true rest
      else if !(isLikelyLlmCall call) then authWalk file authSeen rest
      else if !authSeen then mkAI003Finding file call :: authWalk file authSeen rest
      else authWalk file authSeen rest

/-- `ruleLlmBeforeAuth.run`. -/
def ruleLlmBeforeAuthRun (context : ScanContext) : List Finding :=
  context.sourceFiles.flatMap fun sourceFile =>
    (sourceFile.descendants.filter isRequestHandler).flatMap fun fn =>
      authWalk (relPath context.rootPath sourceFile.filePath) false
        (fn.descOfKind Node.isCallExpression)

/-! ## Ignore-annotation resolver (`scan.ts`) -/

/-- `IgnoreDirective` from `scan.ts`. -/
structure IgnoreDirective where
  ruleId : String
  reason : String
  line : Nat
  consumed : Bool
deriving DecidableEq, Repr

/-- The directive map: normalized file key to that file's directives
(a JS `Map`, modelled as an association list). -/
abbrev DirectiveMap := List (String × List IgnoreDirective)

/-- `Map.prototype.get` with the `?? []` default. -/
def mapGetD (m : DirectiveMap) (k : String) : List IgnoreDirective :=
  match m.find? (fun p => p.1 = k) with
  | some p => p.2
  | none => []

/-- `Map.prototype.set`: replace the entry with the key in place, else append. -/
def mapSetD (m : DirectiveMap) (k : String) (v : List IgnoreDirective) : DirectiveMap :=
  match m with
  | [] => [(k, v)]
  | (k', v') :: rest =>
      if k' = k then (k, v) :: rest else (k', v') :: mapSetD rest k v

/-- `[A-Za-z0-9_]` (the regex word class). -/
def isWordChar (c : Char) : Bool := c.isAlpha || c.isDigit || c = '_'

/-- The per-line ignore-directive pattern
`^\s*\/\/\s*secureai-ignore\s+([A-Za-z0-9_]+)\s*:\s*(.+)\s*$`, returning the
two capture groups (rule id, raw reason). -/
def parseIgnoreChars (cs : List Char) : Option (String × String) :=
  match cs.dropWhile jsIsSpace with
  | '/' :: '/' :: rest =>
      let rest := rest.dropWhile jsIsSpace
      if "secureai-ignore".data.isPrefixOf rest then
        let rest := rest.drop 15
        match rest with
        | [] => none
        | c :: _ =>
            if jsIsSpace c then
              let rest := rest.dropWhile jsIsSpace
              let rid := rest.takeWhile isWordChar
              if rid.isEmpty then none
              else
                match (rest.dropWhile isWordChar).dropWhile jsIsSpace with
                | ':' :: tail =>
                    let tail := tail.dropWhile jsIsSpace
                    if tail.isEmpty then none else some (⟨rid⟩, ⟨tail⟩)
                | _ => none
            else none
      else none
  | _ => none

/-- The line loop of `parseIgnoreDirectives` for one file; `index` is the
0-based line index, the directive records `index + 1`. -/
def parseDirectivesFrom (index : Nat) : List String → List IgnoreDirective
  | [] => []
  | line :: rest =>
      match parseIgnoreChars line.data with
      | none => parseDirectivesFrom (index + 1) rest
      | some (rid, rawReason) =>
          let reason := jsTrim rawReason
          if reason.length = 0 then parseDirectivesFrom (index + 1) rest
          else
            { ruleId := strUpper rid, reason := reason, line := index + 1,
              consumed := false } :: parseDirectivesFrom (index + 1) rest

/-- Directives of one source file. -/
def parseFileDirectives (u : SourceUnit) : List IgnoreDirective :=
  parseDirectivesFrom 0 u.textLines

/-- `parseIgnoreDirectives`: the per-file directive map, keyed by the
normalized file path; files with no directives are not inserted. -/
def parseIgnoreDirectives (sourceFiles : List SourceUnit) : DirectiveMap :=
  sourceFiles.foldl
    (fun byFile sourceFile =>
      let directives := parseFileDirectives sourceFile
      if directives.length > 0 then
        mapSetD byFile (normalizeFileKey sourceFile.filePath) directives
      else byFile)
    []

/-- The directive-match predicate of `applyIgnoreAnnotations`:
unconsumed, same rule id, directive line strictly before the finding line. -/
def directiveMatches (f : Finding) (d : IgnoreDirective) : Bool :=
  !d.consumed && d.ruleId = f.rule_id && d.line < f.line

/-- `directives.find(...)` followed by `match.consumed = true`: the first
matching directive and the directive list with that directive consumed. -/
def consumeFirst (f : Finding) : List IgnoreDirective →
    Option (IgnoreDirective × List IgnoreDirective)
  | [] => none
  | d :: ds =>
      if directiveMatches f d then some (d, { d with consumed := true } :: ds)
      else
        match consumeFirst f ds with
        | some (m, ds') => some (m, d :: ds')
        | none => none

/-- The sorted-findings loop of `applyIgnoreAnnotations`, with the mutable
directive map threaded through and returned. -/
def resolveGo (dm : DirectiveMap) :
    List Finding → DirectiveMap × List Finding × List IgnoredFinding
  | [] => (dm, [], [])
  | f :: rest =>
      let fileKey := normalizeFileKey f.file
      match consumeFirst f (mapGetD dm fileKey) with
      | some (m, ds') =>
          let r := resolveGo (mapSetD dm fileKey ds') rest
          (r.1, r.2.1,
            { finding := f, reason := m.reason, annotationLine := m.line } :: r.2.2)
      | none =>
          let r := resolveGo dm rest
          (r.1, f :: r.2.1, r.2.2)

/-- The sort comparator of `applyIgnoreAnnotations`: normalized file key
(string order standing in for `localeCompare`), then line. -/
def findingLE (a b : Finding) : Prop :=
  strKeyLt (normalizeFileKey a.file) (normalizeFileKey b.file) = true
    ∨ (normalizeFileKey a.file = normalizeFileKey b.file ∧ a.line ≤ b.line)

instance : DecidableRel findingLE := fun a b => by
  unfold findingLE; infer_instance

/-- `[...findings].sort(comparator)`: a stable sort by
`(normalized file, line)` (JS `Array.prototype.sort` is stable). -/
def sortFindings (findings : List Finding) : List Finding :=
  List.insertionSort findingLE findings

/-- `applyIgnoreAnnotations` from `scan.ts`. -/
def applyIgnoreAnnotations (sourceFiles : List SourceUnit) (findings : List Finding) :
    List Finding × List IgnoredFinding :=
  let directivesByFile := parseIgnoreDirectives sourceFiles
  (resolveGo directivesByFile (sortFindings findings)).2

/-! ## Scan pipeline (`scanRepositoryDetailed` minus project construction) -/

/-- A rule as consumed by the pipeline (`Rule` from `types.ts`, reduced to
the fields the pipeline reads). -/
structure ARule where
  id : String
  run : ScanContext → List Finding

/-- The pipeline of `scanRepositoryDetailed`: run the rules in order,
dedupe, then resolve ignore annotations. -/
def runPipeline (context : ScanContext) (activeRules : List ARule) :
    List Finding × List IgnoredFinding :=
  let findings := activeRules.flatMap fun rule => rule.run context
  let deduped := dedupeFindings findings
  applyIgnoreAnnotations context.sourceFiles deduped

/-- AI001 as a pipeline rule. -/
def rulePromptInjectionConcat : ARule :=
  { id := "AI001", run := rulePromptInjectionConcatRun }

/-- AI003 as a pipeline rule. -/
def ruleLlmBeforeAuth : ARule :=
  { id := "AI003", run := ruleLlmBeforeAuthRun }

/-! ## Baseline differ (`src/scanner/baseline.ts`) -/

/-- `BaselineEntry` from `baseline.ts`. -/
structure BaselineEntry where
  rule_id : String
  file : String
  line : Nat
  severity : Severity
  confidence : ℚ
deriving DecidableEq, Repr

/-- The file normalization inside `findingKey`: backslashes to slashes and
lowercase (no extension stripping). -/
def baselineFileNorm (filePath : String) : String :=
  strLower ⟨filePath.data.map fun c => if c = '\\' then '/' else c⟩

/-- `findingKey` from `baseline.ts`. -/
def findingKey (ruleId filePath : String) (line : Nat) : String :=
  ruleId ++ "|" ++ baselineFileNorm filePath ++ "|" ++ toString line

/-- `severityRank` from `baseline.ts`. -/
def severityRank : Severity → Nat
  | .critical => 4
  | .high => 3
  | .medium => 2
  | .low => 1

/-- Association list standing in for the `baselineByKey` JS `Map`. -/
abbrev BaselineMap := List (String × BaselineEntry)

/-- `Map.prototype.get`. -/
def bmGet (m : BaselineMap) (k : String) : Option BaselineEntry :=
  (m.find? fun p => p.1 = k).map Prod.snd

/-- `Map.prototype.set` (replace in place or append). -/
def bmSet (m : BaselineMap) (k : String) (v : BaselineEntry) : BaselineMap :=
  match m with
  | [] => [(k, v)]
  | (k', v') :: rest =>
      if k' = k then (k, v) :: rest else (k', v') :: bmSet rest k v

/-- The `baselineByKey` map build loop. -/
def baselineByKeyMap (entries : List BaselineEntry) : BaselineMap :=
  entries.foldl (fun m entry => bmSet m (findingKey entry.rule_id entry.file entry.line) entry) []

/-- The new-or-regressed test of `applyBaseline` for one finding against
the baseline lookup. -/
def isNewOrRegressed (byKey : BaselineMap) (finding : Finding) : Bool :=
  match bmGet byKey (findingKey finding.rule_id finding.file finding.line) with
  | none => true
  | some previous =>
      if severityRank finding.severity > severityRank previous.severity then true
      else finding.confidence > previous.confidence + 1 / 1000000

/-- The `findings.filter(...)` diff of `applyBaseline` (baseline exists). -/
def baselineDiff (baselineFindings : List BaselineEntry) (findings : List Finding) :
    List Finding :=
  findings.filter fun finding => isNewOrRegressed (baselineByKeyMap baselineFindings) finding

/-! JSON / filesystem model for the baseline file. -/

/-- A parsed JSON value (`JSON.parse` output). -/
inductive Json where
  | null
  | bool (b : Bool)
  | num (q : ℚ)
  | str (s : String)
  | arr (elems : List Json)
  | obj (fields : List (String × Json))

/-- Property access on a parsed JSON value (`parsed.schema` etc.);
duplicate keys keep the last, as `JSON.parse` does. -/
def jsonGet (j : Json) (key : String) : Option Json :=
  match j with
  | .obj fields => ((fields.reverse).find? fun p => p.1 = key).map Prod.snd
  | _ => none

/-- The filesystem as seen by the baseline differ: a map from resolved
paths to the parsed JSON content of the file (parsing itself is the
external `JSON.parse`). -/
structure FileSys where
  files : List (String × Json)

/-- `fs.existsSync` / `readFileSync` + `JSON.parse` combined. -/
def fsRead (fs : FileSys) (path : String) : Option Json :=
  (fs.files.find? fun p => p.1 = path).map Prod.snd

/-- `BaselineResult` from `baseline.ts`. -/
structure BaselineResult where
  created : Bool
  findings : List Finding
  newOrRegressedCount : Nat
deriving DecidableEq, Repr

/-- `readBaseline`'s validation: the schema tag must be exactly
`"secureai-baseline/v1"` and `findings` must be an array; otherwise the
call throws. -/
def readBaselineJson (j : Json) : Except String (List Json) :=
  match jsonGet j "schema", jsonGet j "findings" with
  | some (.str s), some (.arr xs) =>
      if s = "secureai-baseline/v1" then .ok xs
      else .error "Invalid baseline file"
  | _, _ => .error "Invalid baseline file"

/-- Decoding of one persisted entry back into the `BaselineEntry` shape
(the source reads the parsed JSON as typed `BaselineEntry` records; entries
of any other shape are outside the claims considered here). -/
def decodeEntry (j : Json) : BaselineEntry :=
  { rule_id :=
      match jsonGet j "rule_id" with
      | some (.str s) => s
      | _ => ""
    file :=
      match jsonGet j "file" with
      | some (.str s) => s
      | _ => ""
    line :=
      match jsonGet j "line" with
      | some (.num q) => q.num.toNat
      | _ => 0
    severity :=
      match jsonGet j "severity" with
      | some (.str "critical") => .critical
      | some (.str "high") => .high
      | some (.str "medium") => .medium
      | _ => .low
    confidence :=
      match jsonGet j "confidence" with
      | some (.num q) => q
      | _ => 0 }

/-- Serialization of one baseline entry (shape only; used by the
first-run `writeBaseline`). -/
def encodeEntry (e : BaselineEntry) : Json :=
  .obj [("rule_id", .str e.rule_id), ("file", .str e.file),
    ("line", .num e.line), ("severity",
      .str (match e.severity with
        | .critical => "critical"
        | .high => "high"
        | .medium => "medium"
        | .low => "low")),
    ("confidence", .num e.confidence)]

/-- Entry sort order of `writeBaseline` (`findingKey` `localeCompare`,
string order standing in for `localeCompare`). -/
def entryKeyLE (a b : BaselineEntry) : Prop :=
  findingKey a.rule_id a.file a.line ≤ findingKey b.rule_id b.file b.line

instance : DecidableRel entryKeyLE := fun a b => by
  unfold entryKeyLE; infer_instance

/-- `writeBaseline` from `baseline.ts`: the JSON written on first run
(`now` is the `new Date().toISOString()` value, passed explicitly). -/
def writeBaselineJson (now : String) (findings : List Finding) : Json :=
  .obj [("schema", .str "secureai-baseline/v1"), ("createdAt", .str now),
    ("findings", .arr
      ((List.insertionSort entryKeyLE
          (findings.map fun f =>
            ({ rule_id := f.rule_id, file := f.file, line := f.line,
               severity := f.severity, confidence := f.confidence } : BaselineEntry))).map
        encodeEntry))]

/-- `applyBaseline` from `baseline.ts`, with the filesystem threaded
explicitly; a thrown error leaves the filesystem unchanged and is returned
as `Except.error`. -/
def applyBaselineFs (fs : FileSys) (filePath : String) (findings : List Finding)
    (now : String) : FileSys × Except String BaselineResult :=
  match fsRead fs filePath with
  | none =>
      (⟨fs.files ++ [(filePath, writeBaselineJson now findings)]⟩,
        .ok { created := true, findings := findings,
              newOrRegressedCount := findings.length })
  | some j =>
      match readBaselineJson j with
      | .error msg => (fs, .error msg)
      | .ok rawEntries =>
          let diff := baselineDiff (rawEntries.map decodeEntry) findings
          (fs, .ok { created := false, findings := diff,
                     newOrRegressedCount := diff.length })

/-! ## Spec-side definitions for refinement comparisons

Each definition below follows the words of a spec/claim sentence (not the
source); they exist to be compared with the source-derived definitions. -/

/-- `content` property values of the object-literal elements of a
`messages` array property value (helper for `specC3PromptArguments`). -/
def messagesContents (messagesVal : Node) : List Node :=
  match messagesVal with
  | .arrayLit _ elems =>
      elems.filterMap fun element =>
        match element with
        | .objectLit _ props =>
            match props.find? (fun prop =>
                prop.isPropertyAssignment
                  && (prop.propNameText.map stripQuotes == some "content")) with
            | some prop => prop.propInit
            | none => none
        | _ => none
  | _ => []

/-- Claim C3's description of the prompt-bearing arguments of an LLM call:
the single first argument when it is not an object literal; otherwise the
value of its `prompt` property and/or each `content` property of array
elements under a `messages` property. -/
def specC3PromptArguments (n : Node) : List Node :=
  match n with
  | .callExpr _ _ args =>
      match args with
      | [] => []
      | firstArg :: _ =>
          match firstArg with
          | .objectLit _ props =>
              props.flatMap fun prop =>
                if prop.isPropertyAssignment
                    && (prop.propNameText.map stripQuotes == some "prompt") then
                  prop.propInit.toList
                else if prop.isPropertyAssignment
                    && (prop.propNameText.map stripQuotes == some "messages") then
                  match prop.propInit with
                  | some v => messagesContents v
                  | none => []
                else []
          | _ => [firstArg]
  | _ => []

/-- The amended C3 statement of AI001's extraction: first argument when it
is not an object literal; for an object literal, the value of the first
`prompt` property assignment if one exists, else nothing (`messages` is
not examined by AI001). -/
def amendedPromptArguments (n : Node) : List Node :=
  match n with
  | .callExpr _ _ (firstArg :: _) =>
      match firstArg with
      | .objectLit _ props =>
          match (props.find? fun prop =>
              prop.isPropertyAssignment
                && (prop.propNameText.map stripQuotes == some "prompt")) with
          | some prop => prop.propInit.toList
          | none => []
      | _ => [firstArg]
  | _ => []

/-- Claim C6's tuple key `(rule_id, normalized_file, line, summary)`. -/
def tupleKey (f : Finding) : String × String × Nat × String :=
  (f.rule_id, normalizeFileKey f.file, f.line, f.summary)

/-- Claim C6's description of deduplication: keep the first occurrence of
each tuple key, drop later findings with an equal tuple key, preserve
order otherwise. -/
def specTupleDedupe : List Finding → List Finding
  | [] => []
  | f :: rest =>
      f :: specTupleDedupe (rest.filter fun g => tupleKey g ≠ tupleKey f)
termination_by l => l.length
decreasing_by
  exact Nat.lt_succ_of_le (List.length_filter_le _ _)

/-- First-occurrence-per-key filtering for the joined string key actually
used by `dedupeFindings` (the amended C6 statement). -/
def firstPerKey : List Finding → List Finding
  | [] => []
  | f :: rest =>
      f :: firstPerKey (rest.filter fun g => dedupeKey g ≠ dedupeKey f)
termination_by l => l.length
decreasing_by
  exact Nat.lt_succ_of_le (List.length_filter_le _ _)

/-- Claim C7's description of the shared `normalized_file` component:
lowercase, canonical separators, and a stripped source-file extension —
i.e. the deduplicator's `normalizeFileKey`.  The lowercase-plus-separator
part alone is `baselineFileNorm` above. -/
def specNormalizedFile (filePath : String) : String := normalizeFileKey filePath

/-- Does the (already lowercased) path end in a source-file extension? -/
def hasSrcExt (s : String) : Bool :=
  strEndsWith s ".ts" || strEndsWith s ".tsx" || strEndsWith s ".js" || strEndsWith s ".jsx"

/-! ## Counting and projection helpers used by the theorem statements -/

/-- Total number of parsed directives in a directive map. -/
def totalDirectives (dm : DirectiveMap) : Nat :=
  (dm.map fun p => p.2.length).sum

/-- Number of not-yet-consumed directives in a directive map. -/
def unconsumedCount (dm : DirectiveMap) : Nat :=
  (dm.map fun p => (p.2.filter fun d => !d.consumed).length).sum

/-- Findings of one rule id. -/
def byRule (ruleId : String) (findings : List Finding) : List Finding :=
  findings.filter fun f => f.rule_id = ruleId

/-- Ignored findings of one rule id. -/
def byRuleIgnored (ruleId : String) (ignored : List IgnoredFinding) : List IgnoredFinding :=
  ignored.filter fun ig => ig.finding.rule_id = ruleId

/-- The identity of a directive inside its map: normalized file key and
source line (directive lines within one file are pairwise distinct). -/
def directiveId (fileKey : String) (d : IgnoreDirective) : String × Nat :=
  (fileKey, d.line)

/-! ## Concrete inputs used by counterexamples and witnesses -/

/-- `openai.chat.completions.create`. -/
def exLlmCallee : Node :=
  .propAccess 2 (.propAccess 2 (.propAccess 2 (.ident 2 "openai") "chat") "completions") "create"

/-- An LLM call whose first argument is an object literal with only a
`messages` array of one `{ content: x }` element. -/
def exMessagesCall : Node :=
  .callExpr 5 (.ident 5 "openai")
    [.objectLit 5
      [.propAssign 5 (.ident 5 "messages")
        (.arrayLit 5 [.objectLit 5 [.propAssign 5 (.ident 5 "content") (.ident 5 "x")]])]]

/-- A finding with a `|` inside its rule id. -/
def exPipeFindingA : Finding :=
  { rule_id := "R|x", title := "", severity := .low, file := "y", line := 1,
    summary := "s", description := "", recommendation := "", confidence := 0 }

/-- A finding with a `|` inside its file path; its joined dedupe key
collides with `exPipeFindingA`'s although the tuples differ. -/
def exPipeFindingB : Finding :=
  { rule_id := "R", title := "", severity := .low, file := "x|y", line := 1,
    summary := "s", description := "", recommendation := "", confidence := 0 }

/-- A handler calling an LLM with `"hi " + req` on line 2: AI001 flags the
argument and AI003 flags the call, both at line 2 of the same file. -/
def exTieUnit : SourceUnit :=
  { filePath := "/r/app.ts", textLines := ["", ""],
    stmts := [.func 1 ["req"]
      [.callExpr 2 exLlmCallee
        [.binaryExpr 2 "+" (.strLit 2 "\"hi \"") (.ident 2 "req")]]] }

/-- Context for the rule-order counterexample. -/
def exTieCtx : ScanContext := { rootPath := "/r", sourceFiles := [exTieUnit] }

/-- Scenario D, auth first: `requireAuth(req)` on line 2, LLM call on line 3. -/
def exAuthFirstUnit : SourceUnit :=
  { filePath := "/r/a.ts", textLines := [""],
    stmts := [.func 1 ["req"]
      [.callExpr 2 (.ident 2 "requireAuth") [.ident 2 "req"],
       .callExpr 3 exLlmCallee [.ident 3 "x"]]] }

/-- Scenario D, reversed: LLM call on line 2, `requireAuth(req)` on line 3. -/
def exLlmFirstUnit : SourceUnit :=
  { filePath := "/r/a.ts", textLines := [""],
    stmts := [.func 1 ["req"]
      [.callExpr 2 exLlmCallee [.ident 2 "x"],
       .callExpr 3 (.ident 3 "requireAuth") [.ident 3 "req"]]] }

/-- A baseline entry for the C1 witness. -/
def exBaselineEntry : BaselineEntry :=
  { rule_id := "AI003", file := "src/app.ts", line := 12, severity := .critical,
    confidence := 2 / 5 }

/-- The same finding seen again with identical severity and confidence. -/
def exUnchangedFinding : Finding :=
  { rule_id := "AI003", title := "LLM call before authentication",
    severity := .critical, file := "src/app.ts", line := 12,
    summary := "LLM call occurs before auth checks.", description := "",
    recommendation := "", confidence := 2 / 5 }

/-- A filesystem holding a baseline file whose JSON has no schema tag. -/
def exBadBaselineFs : FileSys :=
  ⟨[("/tmp/baseline.json", .obj [("findings", .str "nope")])]⟩

/-- A unit whose normalized path key matches the findings below, with one
AI003 ignore directive on line 1 and two AI003 findings behind it. -/
def exIgnoreUnit : SourceUnit :=
  { filePath := "w.ts",
    textLines := ["// secureai-ignore AI003: reviewed", "", ""],
    stmts := [] }

/-- A finding in `w.ts` at line 2. -/
def exIgnoreFinding1 : Finding :=
  { rule_id := "AI003", title := "t", severity := .critical, file := "w.ts",
    line := 2, summary := "s1", description := "", recommendation := "",
    confidence := 2 / 5 }

/-- A finding in `w.ts` at line 3. -/
def exIgnoreFinding2 : Finding :=
  { rule_id := "AI003", title := "t", severity := .critical, file := "w.ts",
    line := 3, summary := "s2", description := "", recommendation := "",
    confidence := 2 / 5 }

/-- The directives of one rule id within a directive list (used to state
that the resolver treats different rules' directives independently). -/
def dirView (ruleId : String) (ds : List IgnoreDirective) : List IgnoreDirective :=
  ds.filter fun d => d.ruleId = ruleId

/-! ## Order facts for the sort comparators -/

/-- `charsLt` is transitive. -/
theorem charsLt_trans :
    ∀ {a b c : List Char}, charsLt a b = true → charsLt b c = true → charsLt a c = true
  | [], [], _, hab, _ => by simp [charsLt] at hab
  | [], _ :: _, [], _, hbc => by simp [charsLt] at hbc
  | [], _ :: _, _ :: _, _, _ => by simp [charsLt]
  | _ :: _, [], _, hab, _ => by simp [charsLt] at hab
  | _ :: _, _ :: _, [], _, hbc => by simp [charsLt] at hbc
  | a :: as, b :: bs, c :: cs, hab, hbc => by
      simp only [charsLt] at hab hbc ⊢
      by_cases h1 : a < b
      · by_cases h2 : b < c
        · simp [h1.trans h2]
        · by_cases h3 : c < b
          · simp [h2, h3] at hbc
          · have hbc' : b = c := le_antisymm (not_lt.mp h3) (not_lt.mp h2)
            subst hbc'
            simp [h1]
      · by_cases h1' : b < a
        · simp [h1, h1'] at hab
        · have hab' : a = b := le_antisymm (not_lt.mp h1') (not_lt.mp h1)
          subst hab'
          simp only [lt_irrefl, if_false] at hab
          by_cases h2 : a < c
          · simp [h2]
          · by_cases h3 : c < a
            · simp [h2, h3] at hbc
            · have hac : a = c := le_antisymm (not_lt.mp h3) (not_lt.mp h2)
              subst hac
              simp only [lt_irrefl, if_false] at hbc ⊢
              exact charsLt_trans hab hbc

/-- `charsLt` trichotomy. -/
theorem charsLt_trichotomy :
    ∀ a b : List Char, charsLt a b = true ∨ a = b ∨ charsLt b a = true
  | [], [] => Or.inr (Or.inl rfl)
  | [], _ :: _ => Or.inl (by simp [charsLt])
  | _ :: _, [] => Or.inr (Or.inr (by simp [charsLt]))
  | a :: as, b :: bs => by
      rcases lt_trichotomy a b with h | h | h
      · exact Or.inl (by simp [charsLt, h])
      · subst h
        rcases charsLt_trichotomy as bs with h' | h' | h'
        · exact Or.inl (by simp [charsLt, lt_irrefl, h'])
        · exact Or.inr (Or.inl (by rw [h']))
        · exact Or.inr (Or.inr (by simp [charsLt, lt_irrefl, h']))
      · exact Or.inr (Or.inr (by simp [charsLt, h]))

/-- `strKeyLt` trichotomy. -/
theorem strKeyLt_trichotomy (a b : String) :
    strKeyLt a b = true ∨ a = b ∨ strKeyLt b a = true := by
  rcases charsLt_trichotomy a.data b.data with h | h | h
  · exact Or.inl h
  · refine Or.inr (Or.inl ?_)
    cases a; cases b
    exact congrArg String.mk h
  · exact Or.inr (Or.inr h)

instance : IsTotal Finding findingLE where
  total a b := by
    rcases strKeyLt_trichotomy (normalizeFileKey a.file) (normalizeFileKey b.file)
      with h | h | h
    · exact Or.inl (Or.inl h)
    · rcases Nat.le_total a.line b.line with h' | h'
      · exact Or.inl (Or.inr ⟨h, h'⟩)
      · exact Or.inr (Or.inr ⟨h.symm, h'⟩)
    · exact Or.inr (Or.inl h)

instance : IsTrans Finding findingLE where
  trans a b c hab hbc := by
    rcases hab with h1 | ⟨h1, h1'⟩ <;> rcases hbc with h2 | ⟨h2, h2'⟩
    · exact Or.inl (charsLt_trans h1 h2)
    · exact Or.inl (by rw [← h2]; exact h1)
    · exact Or.inl (by rw [h1]; exact h2)
    · exact Or.inr ⟨h1.trans h2, h1'.trans h2'⟩

/-! ## C5: confidence scorer -/

/-- C5: for every combination of the four boolean signals,
`calculateConfidence` returns min(1, sum of the applicable contributions
0.3 / 0.3 / 0.2 / 0.2) rounded to two decimal places, and the result always
lies in [0, 1]. -/
theorem c5_confidence_additive_capped :
    ∀ directUserInput stringConcatOrTemplate requestObjectSource confirmedLlmCall : Bool,
      calculateConfidence directUserInput stringConcatOrTemplate requestObjectSource
          confirmedLlmCall
        = jsToFixed2 (min 1
            ((if directUserInput then 3 / 10 else 0)
              + (if stringConcatOrTemplate then 3 / 10 else 0)
              + (if requestObjectSource then 2 / 10 else 0)
              + (if confirmedLlmCall then 2 / 10 else 0)))
      ∧ 0 ≤ calculateConfidence directUserInput stringConcatOrTemplate
          requestObjectSource confirmedLlmCall
      ∧ calculateConfidence directUserInput stringConcatOrTemplate
          requestObjectSource confirmedLlmCall ≤ 1 := by
  intro a b c d
  cases a <;> cases b <;> cases c <;> cases d <;>
    norm_num [calculateConfidence, jsToFixed2, jsMin]

/-! ## C7: baseline key vs. dedupe key normalization -/

/-- C7 counterexample: the baseline differ's `findingKey` normalization
does not strip the `.ts` extension, so it differs from the deduplicator's
`normalizeFileKey` on `src/App.ts`. -/
theorem c7_counterexample_baseline_key_keeps_extension :
    baselineFileNorm "src/App.ts" = "src/app.ts"
      ∧ normalizeFileKey "src/App.ts" = "src/app"
      ∧ baselineFileNorm "src/App.ts" ≠ normalizeFileKey "src/App.ts" := by
  decide

/-- C7 amended: the Baseline Differ's key normalization lowercases the path
and converts backslashes to slashes but does not strip source-file
extensions; its key therefore agrees with one built from the Deduplicator's
`normalizeFileKey` exactly when the normalized path carries no
`.ts`/`.tsx`/`.js`/`.jsx` extension. -/
theorem c7_amended_baseline_key_normalization :
    ∀ (ruleId filePath : String) (line : Nat),
      hasSrcExt (baselineFileNorm filePath) = false →
      findingKey ruleId filePath line
        = ruleId ++ "|" ++ normalizeFileKey filePath ++ "|" ++ toString line := by
  intro ruleId filePath line h
  have hb : normalizeFileKey filePath = baselineFileNorm filePath := by
    unfold hasSrcExt at h
    unfold normalizeFileKey baselineFileNorm at *
    simp only [Bool.or_eq_false_iff] at h
    obtain ⟨⟨⟨h1, h2⟩, h3⟩, h4⟩ := h
    simp [h1, h2, h3, h4]
  unfold findingKey
  rw [hb]

/-- C7 amended witness at a path without a source extension. -/
theorem c7_amended_witness :
    hasSrcExt (baselineFileNorm "docs/A.md") = false
      ∧ findingKey "AI001" "docs/A.md" 3
          = "AI001" ++ "|" ++ normalizeFileKey "docs/A.md" ++ "|" ++ toString 3 :=
  ⟨by decide, c7_amended_baseline_key_normalization "AI001" "docs/A.md" 3 (by decide)⟩

/-! ## C3: AI001 prompt-argument extraction -/

/-- C3 counterexample: on an LLM call whose object-literal first argument
has only a `messages` array, the claim's extraction yields the `content`
value but AI001's `getPromptArguments` yields nothing. -/
theorem c3_counterexample_messages_not_extracted :
    getPromptArguments exMessagesCall = []
      ∧ specC3PromptArguments exMessagesCall = [Node.ident 5 "x"]
      ∧ getPromptArguments exMessagesCall ≠ specC3PromptArguments exMessagesCall :=
  ⟨rfl, rfl, fun h => by
    rw [show getPromptArguments exMessagesCall = [] from rfl,
      show specC3PromptArguments exMessagesCall = [Node.ident 5 "x"] from rfl] at h
    exact List.noConfusion h⟩

/-- C3 amended: AI001's prompt-bearing arguments are the single first
argument when it is not an object literal, and for an object-literal first
argument only the value of its first `prompt` property (if present);
`messages`/`content` values are not extracted by this rule. -/
theorem c3_amended_prompt_arguments :
    ∀ n : Node, getPromptArguments n = amendedPromptArguments n := by
  intro n
  cases n <;> try rfl
  rename_i line callee args
  cases args with
  | nil => rfl
  | cons firstArg rest =>
      cases firstArg <;> try rfl
      rename_i pline props
      show (match props.find? (fun prop =>
          prop.isPropertyAssignment
            && (prop.propNameText.map stripQuotes == some "prompt")) with
        | some prop =>
            match prop.propInit with
            | some init => [init]
            | none => []
        | none => [])
        = (match props.find? (fun prop =>
            prop.isPropertyAssignment
              && (prop.propNameText.map stripQuotes == some "prompt")) with
          | some prop => prop.propInit.toList
          | none => [])
      cases props.find? (fun prop =>
          prop.isPropertyAssignment
            && (prop.propNameText.map stripQuotes == some "prompt")) with
      | none => rfl
      | some prop => cases hpi : prop.propInit <;> simp [hpi, Option.toList]

/-! ## C9: malformed baseline files are a hard error -/

/-- C9: when the baseline file exists but its parsed content has a schema
tag other than `"secureai-baseline/v1"` or a `findings` field that is not
an array, `applyBaseline` raises an error for the current invocation and
leaves the filesystem unchanged (it neither treats the baseline as empty
nor migrates it). -/
theorem c9_malformed_baseline_is_fatal :
    ∀ (fs : FileSys) (filePath : String) (findings : List Finding) (now : String) (j : Json),
      fsRead fs filePath = some j →
      (jsonGet j "schema" ≠ some (Json.str "secureai-baseline/v1")
        ∨ ∀ xs, jsonGet j "findings" ≠ some (Json.arr xs)) →
      applyBaselineFs fs filePath findings now = (fs, .error "Invalid baseline file") := by
  intro fs filePath findings now j hread hbad
  have hrb : readBaselineJson j = .error "Invalid baseline file" := by
    unfold readBaselineJson
    split
    · rename_i s xs hs hf
      rcases hbad with hbad | hbad
      · rw [if_neg]
        intro htag
        exact hbad (htag ▸ hs)
      · exact absurd hf (hbad xs)
    · rfl
  simp only [applyBaselineFs, hread, hrb]

/-- C9 witness: a baseline file without a schema tag is rejected and the
filesystem value is returned unchanged. -/
theorem c9_witness :
    applyBaselineFs exBadBaselineFs "/tmp/baseline.json" [] "2026-01-01"
      = (exBadBaselineFs, .error "Invalid baseline file") :=
  c9_malformed_baseline_is_fatal exBadBaselineFs "/tmp/baseline.json" [] "2026-01-01"
    (.obj [("findings", .str "nope")]) rfl
    (Or.inl fun h => by
      rw [show jsonGet (.obj [("findings", .str "nope")]) "schema" = none from rfl] at h
      exact Option.noConfusion h)

/-! ## C6: deduplication -/

/-- C6 counterexample: two findings with distinct `(rule_id,
normalized_file, line, summary)` tuples whose `"|"`-joined keys coincide;
`dedupeFindings` drops the second although the claim's tuple-keyed
deduplication would keep both. -/
theorem c6_counterexample_joined_key_collision :
    tupleKey exPipeFindingA ≠ tupleKey exPipeFindingB
      ∧ dedupeFindings [exPipeFindingA, exPipeFindingB] = [exPipeFindingA]
      ∧ specTupleDedupe [exPipeFindingA, exPipeFindingB] = [exPipeFindingA, exPipeFindingB]
      ∧ dedupeFindings [exPipeFindingA, exPipeFindingB]
          ≠ specTupleDedupe [exPipeFindingA, exPipeFindingB] := by
  have h2 : specTupleDedupe [exPipeFindingA, exPipeFindingB]
      = [exPipeFindingA, exPipeFindingB] := by
    simp +decide [specTupleDedupe]
  refine ⟨by decide, by decide, h2, ?_⟩
  rw [h2,
    show dedupeFindings [exPipeFindingA, exPipeFindingB] = [exPipeFindingA] from by decide]
  decide

/-- One step of the dedupe loop, as an equation. -/
theorem dedupeGo_cons (seen : List String) (f : Finding) (rest : List Finding) :
    dedupeGo seen (f :: rest)
      = if seen.contains (dedupeKey f) then dedupeGo seen rest
        else f :: dedupeGo (dedupeKey f :: seen) rest := rfl

/-- The dedupe loop with an explicit `seen` set keeps exactly the first
occurrence of each joined key not already seen. -/
theorem dedupeGo_eq_firstPerKey :
    ∀ (l : List Finding) (seen : List String),
      dedupeGo seen l = firstPerKey (l.filter fun f => !(seen.contains (dedupeKey f))) := by
  intro l
  induction l with
  | nil => intro seen; simp [dedupeGo, firstPerKey]
  | cons f rest ih =>
      intro seen
      rw [dedupeGo_cons]
      by_cases hf : seen.contains (dedupeKey f) = true
      · rw [if_pos hf, ih seen]
        congr 1
        rw [List.filter_cons_of_neg]
        simpa using hf
      · rw [if_neg hf, ih (dedupeKey f :: seen)]
        rw [show (f :: rest).filter (fun g => !(seen.contains (dedupeKey g)))
            = f :: rest.filter (fun g => !(seen.contains (dedupeKey g))) from by
          rw [List.filter_cons_of_pos]
          simpa using hf]
        rw [firstPerKey]
        congr 1
        rw [List.filter_filter]
        congr 1
        apply List.filter_congr
        intro g _
        by_cases he : dedupeKey g = dedupeKey f <;>
          simp [List.contains_cons, he]

/-- The dedupe loop output is a sublist of its input (stability). -/
theorem dedupeGo_sublist :
    ∀ (l : List Finding) (seen : List String), (dedupeGo seen l).Sublist l := by
  intro l
  induction l with
  | nil => intro seen; exact List.Sublist.refl []
  | cons f rest ih =>
      intro seen
      rw [dedupeGo_cons]
      by_cases hf : seen.contains (dedupeKey f) = true
      · rw [if_pos hf]
        exact (ih seen).cons f
      · rw [if_neg hf]
        exact (ih (dedupeKey f :: seen)).cons₂ f

/-- C6 amended: `dedupeFindings` keys findings by the joined string
`rule_id|normalized_file|line|summary` (so distinct tuples whose joined
renderings coincide also collapse); among findings with an equal joined
key exactly the first occurrence in input order survives, and the
surviving findings form a sublist of the input (stable order, findings
unmodified). -/
theorem c6_amended_dedupe_first_per_joined_key :
    ∀ findings : List Finding,
      dedupeFindings findings = firstPerKey findings
        ∧ (dedupeFindings findings).Sublist findings := by
  intro findings
  constructor
  · rw [show dedupeFindings findings = dedupeGo [] findings from rfl,
      dedupeGo_eq_firstPerKey findings []]
    congr 1
    simp
  · exact dedupeGo_sublist findings []

/-! ## C1: baseline classification -/

/-- `bmSet` then `bmGet`. -/
theorem bmGet_bmSet :
    ∀ (m : BaselineMap) (k k' : String) (v : BaselineEntry),
      bmGet (bmSet m k' v) k = if k = k' then some v else bmGet m k := by
  intro m
  induction m with
  | nil =>
      intro k k' v
      by_cases h : k = k'
      · subst h
        simp [bmSet, bmGet, List.find?]
      · rw [if_neg h]
        have hd : (decide (k' = k)) = false := decide_eq_false fun hh => h hh.symm
        simp [bmSet, bmGet, List.find?, hd]
  | cons p rest ih =>
      intro k k' v
      obtain ⟨pk, pv⟩ := p
      by_cases hpk : pk = k'
      · rw [show bmSet ((pk, pv) :: rest) k' v = (k', v) :: rest from by simp [bmSet, hpk]]
        by_cases h : k = k'
        · subst h
          simp [bmGet, List.find?]
        · rw [if_neg h]
          have hd : (decide (k' = k)) = false := decide_eq_false fun hh => h hh.symm
          have hd2 : (decide (pk = k)) = false := by rw [hpk]; exact hd
          simp [bmGet, List.find?, hd, hd2]
      · rw [show bmSet ((pk, pv) :: rest) k' v = (pk, pv) :: bmSet rest k' v from by
          simp [bmSet, hpk]]
        by_cases h : pk = k
        · have hkk' : ¬ k = k' := fun hh => hpk (h.trans hh)
          rw [if_neg hkk']
          have hd : (decide (pk = k)) = true := decide_eq_true h
          simp [bmGet, List.find?, hd]
        · have hd : (decide (pk = k)) = false := decide_eq_false h
          rw [show bmGet ((pk, pv) :: bmSet rest k' v) k = bmGet (bmSet rest k' v) k from by
            simp [bmGet, List.find?, hd]]
          rw [show bmGet ((pk, pv) :: rest) k = bmGet rest k from by
            simp [bmGet, List.find?, hd]]
          exact ih k k' v

/-- Emptiness of the `baselineByKey` lookup characterizes "no baseline
entry shares the key". -/
theorem bmGet_baselineByKeyMap_none :
    ∀ (entries : List BaselineEntry) (m : BaselineMap) (k : String),
      bmGet (entries.foldl
          (fun m entry => bmSet m (findingKey entry.rule_id entry.file entry.line) entry) m) k
          = none
        ↔ (bmGet m k = none
            ∧ ∀ e ∈ entries, findingKey e.rule_id e.file e.line ≠ k) := by
  intro entries
  induction entries with
  | nil => intro m k; simp
  | cons e rest ih =>
      intro m k
      rw [List.foldl_cons, ih]
      rw [bmGet_bmSet]
      by_cases h : k = findingKey e.rule_id e.file e.line
      · simp [h]
      · simp only [if_neg h, List.mem_cons]
        constructor
        · rintro ⟨h1, h2⟩
          exact ⟨h1, fun x hx => by
            rcases hx with rfl | hx
            · exact fun hh => h hh.symm
            · exact h2 x hx⟩
        · rintro ⟨h1, h2⟩
          exact ⟨h1, fun x hx => h2 x (Or.inr hx)⟩

/-- C1: a current finding is in the baseline diff iff no baseline entry
shares its `(rule_id, normalized_file, line)` key, or its severity rank is
strictly greater than the stored entry's, or its confidence exceeds the
stored entry's by more than 1e-6; all other findings are excluded.  In
particular a finding whose stored entry has identical severity and
confidence is never returned. -/
theorem c1_baseline_new_or_regressed :
    ∀ (entries : List BaselineEntry) (findings : List Finding) (f : Finding),
      (f ∈ baselineDiff entries findings ↔
        f ∈ findings ∧
          (bmGet (baselineByKeyMap entries) (findingKey f.rule_id f.file f.line) = none
            ∨ ∃ previous,
                bmGet (baselineByKeyMap entries) (findingKey f.rule_id f.file f.line)
                    = some previous
                  ∧ (severityRank f.severity > severityRank previous.severity
                    ∨ f.confidence > previous.confidence + 1 / 1000000)))
      ∧ (bmGet (baselineByKeyMap entries) (findingKey f.rule_id f.file f.line) = none
          ↔ ∀ e ∈ entries,
              findingKey e.rule_id e.file e.line ≠ findingKey f.rule_id f.file f.line)
      ∧ (∀ previous,
          bmGet (baselineByKeyMap entries) (findingKey f.rule_id f.file f.line)
              = some previous →
          previous.severity = f.severity → previous.confidence = f.confidence →
          f ∉ baselineDiff entries findings) := by
  intro entries findings f
  have hmem : f ∈ baselineDiff entries findings ↔
      f ∈ findings ∧
        (bmGet (baselineByKeyMap entries) (findingKey f.rule_id f.file f.line) = none
          ∨ ∃ previous,
              bmGet (baselineByKeyMap entries) (findingKey f.rule_id f.file f.line)
                  = some previous
                ∧ (severityRank f.severity > severityRank previous.severity
                  ∨ f.confidence > previous.confidence + 1 / 1000000)) := by
    rw [baselineDiff, List.mem_filter]
    constructor
    · rintro ⟨h1, h2⟩
      refine ⟨h1, ?_⟩
      unfold isNewOrRegressed at h2
      cases hb : bmGet (baselineByKeyMap entries) (findingKey f.rule_id f.file f.line) with
      | none => exact Or.inl rfl
      | some previous =>
          rw [hb] at h2
          dsimp only at h2
          refine Or.inr ⟨previous, rfl, ?_⟩
          by_cases hs : severityRank f.severity > severityRank previous.severity
          · exact Or.inl hs
          · rw [if_neg hs] at h2
            exact Or.inr (of_decide_eq_true h2)
    · rintro ⟨h1, h2⟩
      refine ⟨h1, ?_⟩
      unfold isNewOrRegressed
      rcases h2 with h2 | ⟨previous, hb, h2⟩
      · rw [h2]
      · rw [hb]
        dsimp only
        rcases h2 with h2 | h2
        · rw [if_pos h2]
        · by_cases hs : severityRank f.severity > severityRank previous.severity
          · rw [if_pos hs]
          · rw [if_neg hs]
            exact decide_eq_true h2
  refine ⟨hmem, ?_, ?_⟩
  · have hchar := bmGet_baselineByKeyMap_none entries [] (findingKey f.rule_id f.file f.line)
    rw [show baselineByKeyMap entries
        = entries.foldl
            (fun m entry => bmSet m (findingKey entry.rule_id entry.file entry.line) entry) []
      from rfl]
    rw [hchar]
    simp [bmGet]
  · intro previous hb hsev hconf hmemdiff
    rcases (hmem.mp hmemdiff).2 with h | ⟨previous', hb', h⟩
    · rw [h] at hb; exact Option.noConfusion hb
    · rw [hb] at hb'
      injection hb' with hb''
      subst hb''
      rcases h with h | h
      · rw [hsev] at h; exact lt_irrefl _ h
      · rw [hconf] at h
        have hpos : (0 : ℚ) < 1 / 1000000 := by norm_num
        linarith

/-- C1 witness: a finding present in the baseline with identical severity
and confidence is not returned as new-or-regressed. -/
theorem c1_witness :
    exUnchangedFinding ∉ baselineDiff [exBaselineEntry] [exUnchangedFinding] :=
  (c1_baseline_new_or_regressed [exBaselineEntry] [exUnchangedFinding]
      exUnchangedFinding).2.2 exBaselineEntry rfl rfl rfl

/-! ## C4: LLM-before-auth state machine -/

/-- Once `authSeen` is true it stays true and no later call emits. -/
theorem authWalk_authenticated :
    ∀ (file : String) (calls : List Node), authWalk file true calls = [] := by
  intro file calls
  induction calls with
  | nil => rfl
  | cons call rest ih =>
      show (if isAuthCall call then authWalk file true rest
        else if !(isLikelyLlmCall call) then authWalk file true rest
        else if !true then mkAI003Finding file call :: authWalk file true rest
        else authWalk file true rest) = []
      by_cases ha : isAuthCall call = true
      · rw [if_pos ha]; exact ih
      · rw [if_neg ha]
        by_cases hl : isLikelyLlmCall call = true
        · rw [hl]
          simpa using ih
        · rw [show isLikelyLlmCall call = false from by
            cases hc : isLikelyLlmCall call
            · rfl
            · exact absurd hc hl]
          simpa using ih

/-- C4: per request-handler walk, AI003 emits exactly the LLM calls that
precede the first auth-vocabulary call (`authSeen` is monotone and never
reset), and scenario D holds: `requireAuth(req)` before the LLM call gives
zero findings, the reversed order exactly one. -/
theorem c4_llm_before_auth_walk :
    (∀ (file : String) (calls : List Node),
      authWalk file false calls
        = ((calls.takeWhile fun c => !(isAuthCall c)).filter isLikelyLlmCall).map
            (mkAI003Finding file)
      ∧ authWalk file true calls = [])
    ∧ ruleLlmBeforeAuthRun { rootPath := "/r", sourceFiles := [exAuthFirstUnit] } = []
    ∧ (ruleLlmBeforeAuthRun { rootPath := "/r", sourceFiles := [exLlmFirstUnit] }).length
        = 1 := by
  refine ⟨fun file calls => ⟨?_, authWalk_authenticated file calls⟩, rfl, rfl⟩
  induction calls with
  | nil => rfl
  | cons call rest ih =>
      show (if isAuthCall call then authWalk file true rest
        else if !(isLikelyLlmCall call) then authWalk file false rest
        else if !false then mkAI003Finding file call :: authWalk file false rest
        else authWalk file false rest) = _
      by_cases ha : isAuthCall call = true
      · rw [if_pos ha, authWalk_authenticated]
        rw [show (call :: rest).takeWhile (fun c => !(isAuthCall c)) = [] from by
          simp [List.takeWhile_cons, ha]]
        rfl
      · have ha' : isAuthCall call = false := by
          cases hc : isAuthCall call
          · rfl
          · exact absurd hc ha
        rw [if_neg ha]
        rw [show (call :: rest).takeWhile (fun c => !(isAuthCall c))
            = call :: rest.takeWhile (fun c => !(isAuthCall c)) from by
          simp [List.takeWhile_cons, ha']]
        by_cases hl : isLikelyLlmCall call = true
        · rw [show (!(isLikelyLlmCall call)) = false from by rw [hl]; rfl]
          rw [if_neg (by simp)]
          rw [if_pos (by simp)]
          rw [List.filter_cons_of_pos hl, List.map_cons, ih]
        · have hl' : isLikelyLlmCall call = false := by
            cases hc : isLikelyLlmCall call
            · rfl
            · exact absurd hc hl
          rw [show (!(isLikelyLlmCall call)) = true from by rw [hl']; rfl]
          rw [if_pos rfl, ih]
          rw [List.filter_cons_of_neg (by simp [hl'])]

/-! ## C10: the ignore resolver partitions its input -/

/-- One step of the resolver, as an equation. -/
theorem resolveGo_cons (dm : DirectiveMap) (f : Finding) (rest : List Finding) :
    resolveGo dm (f :: rest)
      = match consumeFirst f (mapGetD dm (normalizeFileKey f.file)) with
        | some (m, ds') =>
            let r := resolveGo (mapSetD dm (normalizeFileKey f.file) ds') rest
            (r.1, r.2.1,
              ({ finding := f, reason := m.reason, annotationLine := m.line }
                : IgnoredFinding) :: r.2.2)
        | none =>
            let r := resolveGo dm rest
            (r.1, f :: r.2.1, r.2.2) := rfl

/-- The active and ignored outputs of the resolver are a permutation of
its input list. -/
theorem resolveGo_partition :
    ∀ (l : List Finding) (dm : DirectiveMap),
      ((resolveGo dm l).2.1
        ++ ((resolveGo dm l).2.2.map IgnoredFinding.finding)).Perm l := by
  intro l
  induction l with
  | nil => intro dm; simp [resolveGo]
  | cons f rest ih =>
      intro dm
      rw [resolveGo_cons]
      cases hc : consumeFirst f (mapGetD dm (normalizeFileKey f.file)) with
      | some p =>
          obtain ⟨m, ds'⟩ := p
          refine List.Perm.trans ?_
            ((ih (mapSetD dm (normalizeFileKey f.file) ds')).cons f)
          simp only [List.map_cons]
          exact List.perm_middle
      | none =>
          simpa using (ih dm).cons f

/-- C10: the resolver's two outputs partition its input: every input
finding appears exactly once, in the active list or (wrapped) in the
ignored list, and the output lengths sum to the input length. -/
theorem c10_resolver_partitions_input :
    ∀ (units : List SourceUnit) (findings : List Finding),
      ((applyIgnoreAnnotations units findings).1
        ++ ((applyIgnoreAnnotations units findings).2.map IgnoredFinding.finding)).Perm
          findings
      ∧ (applyIgnoreAnnotations units findings).1.length
          + (applyIgnoreAnnotations units findings).2.length
        = findings.length := by
  intro units findings
  have hp :
      ((applyIgnoreAnnotations units findings).1
        ++ ((applyIgnoreAnnotations units findings).2.map IgnoredFinding.finding)).Perm
        findings := by
    unfold applyIgnoreAnnotations
    exact (resolveGo_partition (sortFindings findings) (parseIgnoreDirectives units)).trans
      (List.perm_insertionSort findingLE findings)
  refine ⟨hp, ?_⟩
  have := hp.length_eq
  simpa using this

/-! ## C2: each ignore directive suppresses at most one finding -/

/-- Decoding the directive-match predicate. -/
theorem directiveMatches_iff (f : Finding) (d : IgnoreDirective) :
    directiveMatches f d = true
      ↔ d.consumed = false ∧ d.ruleId = f.rule_id ∧ d.line < f.line := by
  simp [directiveMatches, Bool.and_eq_true, Bool.not_eq_true', and_assoc]

/-- One step of `consumeFirst`, as an equation. -/
theorem consumeFirst_cons (f : Finding) (d : IgnoreDirective) (ds : List IgnoreDirective) :
    consumeFirst f (d :: ds)
      = if directiveMatches f d then some (d, { d with consumed := true } :: ds)
        else
          match consumeFirst f ds with
          | some (m, ds') => some (m, d :: ds')
          | none => none := rfl

/-- A successful `consumeFirst` returns a matching member of the list. -/
theorem consumeFirst_matches :
    ∀ {ds ds' : List IgnoreDirective} {f : Finding} {m : IgnoreDirective},
      consumeFirst f ds = some (m, ds') → directiveMatches f m = true ∧ m ∈ ds := by
  intro ds
  induction ds with
  | nil => intro ds' f m h; exact Option.noConfusion h
  | cons d rest ih =>
      intro ds' f m h
      rw [consumeFirst_cons] at h
      by_cases hd : directiveMatches f d = true
      · rw [if_pos hd] at h
        injection h with h
        injection h with h1 h2
        subst h1
        exact ⟨hd, List.mem_cons_self d rest⟩
      · rw [if_neg hd] at h
        cases hc : consumeFirst f rest with
        | none => rw [hc] at h; exact Option.noConfusion h
        | some p =>
            obtain ⟨m', rest'⟩ := p
            rw [hc] at h
            injection h with h
            injection h with h1 h2
            subst h1
            obtain ⟨hm, hmem⟩ := ih hc
            exact ⟨hm, List.mem_cons_of_mem d hmem⟩

/-- `consumeFirst` only flips one `consumed` flag: rule ids, lines and
reasons are unchanged. -/
theorem consumeFirst_strip_eq :
    ∀ {ds ds' : List IgnoreDirective} {f : Finding} {m : IgnoreDirective},
      consumeFirst f ds = some (m, ds') →
      ds'.map (fun d => (d.ruleId, d.line, d.reason))
        = ds.map (fun d => (d.ruleId, d.line, d.reason)) := by
  intro ds
  induction ds with
  | nil => intro ds' f m h; exact Option.noConfusion h
  | cons d rest ih =>
      intro ds' f m h
      rw [consumeFirst_cons] at h
      by_cases hd : directiveMatches f d = true
      · rw [if_pos hd] at h
        injection h with h
        injection h with h1 h2
        subst h2
        rfl
      · rw [if_neg hd] at h
        cases hc : consumeFirst f rest with
        | none => rw [hc] at h; exact Option.noConfusion h
        | some p =>
            obtain ⟨m', rest'⟩ := p
            rw [hc] at h
            injection h with h
            injection h with h1 h2
            subst h2
            simp [ih hc]

/-- `consumeFirst` preserves the line sequence. -/
theorem consumeFirst_lines_eq
    {ds ds' : List IgnoreDirective} {f : Finding} {m : IgnoreDirective}
    (h : consumeFirst f ds = some (m, ds')) :
    ds'.map IgnoreDirective.line = ds.map IgnoreDirective.line := by
  have := consumeFirst_strip_eq h
  have h2 := congrArg (List.map (fun t : String × Nat × String => t.2.1)) this
  simpa [Function.comp] using h2

/-- Already-consumed directives survive `consumeFirst`. -/
theorem consumeFirst_keeps_consumed :
    ∀ {ds ds' : List IgnoreDirective} {f : Finding} {m : IgnoreDirective},
      consumeFirst f ds = some (m, ds') →
      ∀ d ∈ ds, d.consumed = true → d ∈ ds' := by
  intro ds
  induction ds with
  | nil => intro ds' f m h; exact fun d hd => absurd hd (List.not_mem_nil d)
  | cons d rest ih =>
      intro ds' f m h
      rw [consumeFirst_cons] at h
      by_cases hd : directiveMatches f d = true
      · rw [if_pos hd] at h
        injection h with h
        injection h with h1 h2
        subst h2
        intro e he hcons
        rcases List.mem_cons.mp he with rfl | he
        · rw [(directiveMatches_iff f e).mp hd |>.1] at hcons
          exact Bool.noConfusion hcons
        · exact List.mem_cons_of_mem _ he
      · rw [if_neg hd] at h
        cases hc : consumeFirst f rest with
        | none => rw [hc] at h; exact Option.noConfusion h
        | some p =>
            obtain ⟨m', rest'⟩ := p
            rw [hc] at h
            injection h with h
            injection h with h1 h2
            subst h2
            intro e he hcons
            rcases List.mem_cons.mp he with rfl | he
            · exact List.mem_cons_self _ _
            · exact List.mem_cons_of_mem _ (ih hc e he hcons)

/-- The consumed copy of the matched directive is in the updated list. -/
theorem consumeFirst_new_consumed :
    ∀ {ds ds' : List IgnoreDirective} {f : Finding} {m : IgnoreDirective},
      consumeFirst f ds = some (m, ds') → { m with consumed := true } ∈ ds' := by
  intro ds
  induction ds with
  | nil => intro ds' f m h; exact Option.noConfusion h
  | cons d rest ih =>
      intro ds' f m h
      rw [consumeFirst_cons] at h
      by_cases hd : directiveMatches f d = true
      · rw [if_pos hd] at h
        injection h with h
        injection h with h1 h2
        subst h1; subst h2
        exact List.mem_cons_self _ _
      · rw [if_neg hd] at h
        cases hc : consumeFirst f rest with
        | none => rw [hc] at h; exact Option.noConfusion h
        | some p =>
            obtain ⟨m', rest'⟩ := p
            rw [hc] at h
            injection h with h
            injection h with h1 h2
            subst h1; subst h2
            exact List.mem_cons_of_mem _ (ih hc)

/-- A successful `consumeFirst` reduces the unconsumed count by one. -/
theorem consumeFirst_count :
    ∀ {ds ds' : List IgnoreDirective} {f : Finding} {m : IgnoreDirective},
      consumeFirst f ds = some (m, ds') →
      (ds'.filter fun d => !d.consumed).length + 1
        = (ds.filter fun d => !d.consumed).length := by
  intro ds
  induction ds with
  | nil => intro ds' f m h; exact Option.noConfusion h
  | cons d rest ih =>
      intro ds' f m h
      rw [consumeFirst_cons] at h
      by_cases hd : directiveMatches f d = true
      · rw [if_pos hd] at h
        injection h with h
        injection h with h1 h2
        subst h2
        have hdc : d.consumed = false := ((directiveMatches_iff f d).mp hd).1
        rw [List.filter_cons_of_neg (by simp),
          List.filter_cons_of_pos (by simp [hdc])]
        simp
      · rw [if_neg hd] at h
        cases hc : consumeFirst f rest with
        | none => rw [hc] at h; exact Option.noConfusion h
        | some p =>
            obtain ⟨m', rest'⟩ := p
            rw [hc] at h
            injection h with h
            injection h with h1 h2
            subst h2
            by_cases hdc : d.consumed = true
            · rw [List.filter_cons_of_neg (by simp [hdc]),
                List.filter_cons_of_neg (by simp [hdc])]
              exact ih hc
            · have hdc' : d.consumed = false := by
                cases hx : d.consumed
                · rfl
                · exact absurd hx hdc
              rw [List.filter_cons_of_pos (by simp [hdc']),
                List.filter_cons_of_pos (by simp [hdc'])]
              simp only [List.length_cons]
              have := ih hc
              omega

/-- `mapSetD` then `mapGetD` at the same key. -/
theorem mapGetD_mapSetD_self :
    ∀ (m : DirectiveMap) (k : String) (v : List IgnoreDirective),
      mapGetD (mapSetD m k v) k = v := by
  intro m
  induction m with
  | nil => intro k v; simp [mapSetD, mapGetD, List.find?]
  | cons p rest ih =>
      intro k v
      obtain ⟨pk, pv⟩ := p
      by_cases h : pk = k
      · rw [show mapSetD ((pk, pv) :: rest) k v = (k, v) :: rest from by
          simp [mapSetD, h]]
        simp [mapGetD, List.find?]
      · rw [show mapSetD ((pk, pv) :: rest) k v = (pk, pv) :: mapSetD rest k v from by
          simp [mapSetD, h]]
        rw [show mapGetD ((pk, pv) :: mapSetD rest k v) k = mapGetD (mapSetD rest k v) k
          from by simp [mapGetD, List.find?, decide_eq_false h]]
        exact ih k v

/-- `mapSetD` then `mapGetD` at another key. -/
theorem mapGetD_mapSetD_other :
    ∀ (m : DirectiveMap) (k k' : String) (v : List IgnoreDirective),
      k' ≠ k → mapGetD (mapSetD m k v) k' = mapGetD m k' := by
  intro m
  induction m with
  | nil =>
      intro k k' v hne
      simp [mapSetD, mapGetD, List.find?, decide_eq_false (Ne.symm hne)]
  | cons p rest ih =>
      intro k k' v hne
      obtain ⟨pk, pv⟩ := p
      by_cases h : pk = k
      · rw [show mapSetD ((pk, pv) :: rest) k v = (k, v) :: rest from by
          simp [mapSetD, h]]
        rw [show mapGetD ((k, v) :: rest) k' = mapGetD rest k' from by
          simp [mapGetD, List.find?, decide_eq_false (Ne.symm hne)]]
        rw [show mapGetD ((pk, pv) :: rest) k' = mapGetD rest k' from by
          subst h
          simp [mapGetD, List.find?, decide_eq_false (Ne.symm hne)]]
      · rw [show mapSetD ((pk, pv) :: rest) k v = (pk, pv) :: mapSetD rest k v from by
          simp [mapSetD, h]]
        by_cases hp : pk = k'
        · subst hp
          simp [mapGetD, List.find?]
        · rw [show mapGetD ((pk, pv) :: mapSetD rest k v) k'
              = mapGetD (mapSetD rest k v) k' from by
            simp [mapGetD, List.find?, decide_eq_false hp]]
          rw [show mapGetD ((pk, pv) :: rest) k' = mapGetD rest k' from by
            simp [mapGetD, List.find?, decide_eq_false hp]]
          exact ih k k' v hne

/-- Unconsumed-count bookkeeping for a map update. -/
theorem unconsumedCount_mapSetD :
    ∀ (m : DirectiveMap) (k : String) (v : List IgnoreDirective),
      unconsumedCount (mapSetD m k v)
          + ((mapGetD m k).filter fun d => !d.consumed).length
        = unconsumedCount m + (v.filter fun d => !d.consumed).length := by
  intro m
  induction m with
  | nil => intro k v; simp [mapSetD, mapGetD, unconsumedCount, List.find?]
  | cons p rest ih =>
      intro k v
      obtain ⟨pk, pv⟩ := p
      by_cases h : pk = k
      · subst h
        rw [show mapSetD ((pk, pv) :: rest) pk v = (pk, v) :: rest from by
          simp [mapSetD]]
        rw [show mapGetD ((pk, pv) :: rest) pk = pv from by simp [mapGetD, List.find?]]
        simp only [unconsumedCount, List.map_cons, List.sum_cons]
        omega
      · rw [show mapSetD ((pk, pv) :: rest) k v = (pk, pv) :: mapSetD rest k v from by
          simp [mapSetD, h]]
        rw [show mapGetD ((pk, pv) :: rest) k = mapGetD rest k from by
          simp [mapGetD, List.find?, decide_eq_false h]]
        simp only [unconsumedCount, List.map_cons, List.sum_cons]
        have := ih k v
        simp only [unconsumedCount] at this
        omega

/-- The unconsumed count never exceeds the total directive count. -/
theorem unconsumedCount_le_totalDirectives :
    ∀ dm : DirectiveMap, unconsumedCount dm ≤ totalDirectives dm := by
  intro dm
  induction dm with
  | nil => simp [unconsumedCount, totalDirectives]
  | cons p rest ih =>
      simp only [unconsumedCount, totalDirectives, List.map_cons, List.sum_cons]
      have h1 : (p.2.filter fun d => !d.consumed).length ≤ p.2.length :=
        List.length_filter_le _ _
      simp only [unconsumedCount, totalDirectives] at ih
      omega

/-- Each suppression consumes exactly one directive: the ignored-output
length plus the remaining unconsumed count equals the initial unconsumed
count. -/
theorem resolveGo_count :
    ∀ (l : List Finding) (dm : DirectiveMap),
      (resolveGo dm l).2.2.length + unconsumedCount (resolveGo dm l).1
        = unconsumedCount dm := by
  intro l
  induction l with
  | nil => intro dm; simp [resolveGo]
  | cons f rest ih =>
      intro dm
      rw [resolveGo_cons]
      cases hc : consumeFirst f (mapGetD dm (normalizeFileKey f.file)) with
      | some p =>
          obtain ⟨m, ds'⟩ := p
          simp only [List.length_cons]
          have hstep : unconsumedCount (mapSetD dm (normalizeFileKey f.file) ds') + 1
              = unconsumedCount dm := by
            have h1 := unconsumedCount_mapSetD dm (normalizeFileKey f.file) ds'
            have h2 := consumeFirst_count hc
            omega
          have := ih (mapSetD dm (normalizeFileKey f.file) ds')
          omega
      | none =>
          simpa using ih dm

/-- Directive lines are strictly beyond the starting index. -/
theorem parseDirectivesFrom_line_gt :
    ∀ (lines : List String) (i : Nat) (d : IgnoreDirective),
      d ∈ parseDirectivesFrom i lines → i < d.line := by
  intro lines
  induction lines with
  | nil => intro i d hd; exact absurd hd (List.not_mem_nil d)
  | cons l rest ih =>
      intro i d hd
      rw [show parseDirectivesFrom i (l :: rest)
          = match parseIgnoreChars l.data with
            | none => parseDirectivesFrom (i + 1) rest
            | some (rid, rawReason) =>
                let reason := jsTrim rawReason
                if reason.length = 0 then parseDirectivesFrom (i + 1) rest
                else
                  { ruleId := strUpper rid, reason := reason, line := i + 1,
                    consumed := false } :: parseDirectivesFrom (i + 1) rest
        from rfl] at hd
      cases hp : parseIgnoreChars l.data with
      | none =>
          rw [hp] at hd
          exact Nat.lt_of_succ_lt (ih (i + 1) d hd)
      | some p =>
          obtain ⟨rid, rawReason⟩ := p
          rw [hp] at hd
          dsimp only at hd
          by_cases hr : (jsTrim rawReason).length = 0
          · rw [if_pos hr] at hd
            exact Nat.lt_of_succ_lt (ih (i + 1) d hd)
          · rw [if_neg hr] at hd
            rcases List.mem_cons.mp hd with rfl | hd
            · exact Nat.lt_succ_self i
            · exact Nat.lt_of_succ_lt (ih (i + 1) d hd)

/-- Directive lines within one file are strictly increasing. -/
theorem parseDirectivesFrom_pairwise :
    ∀ (lines : List String) (i : Nat),
      (parseDirectivesFrom i lines).Pairwise (fun a b => a.line < b.line) := by
  intro lines
  induction lines with
  | nil => intro i; exact List.Pairwise.nil
  | cons l rest ih =>
      intro i
      rw [show parseDirectivesFrom i (l :: rest)
          = match parseIgnoreChars l.data with
            | none => parseDirectivesFrom (i + 1) rest
            | some (rid, rawReason) =>
                let reason := jsTrim rawReason
                if reason.length = 0 then parseDirectivesFrom (i + 1) rest
                else
                  { ruleId := strUpper rid, reason := reason, line := i + 1,
                    consumed := false } :: parseDirectivesFrom (i + 1) rest
        from rfl]
      cases hp : parseIgnoreChars l.data with
      | none => exact ih (i + 1)
      | some p =>
          obtain ⟨rid, rawReason⟩ := p
          dsimp only
          by_cases hr : (jsTrim rawReason).length = 0
          · rw [if_pos hr]
            exact ih (i + 1)
          · rw [if_neg hr]
            refine List.Pairwise.cons ?_ (ih (i + 1))
            intro b hb
            exact parseDirectivesFrom_line_gt rest (i + 1) b hb

/-- Directive line lists in the parsed map have no duplicates. -/
theorem parseIgnoreDirectives_lines_nodup :
    ∀ (units : List SourceUnit) (k : String),
      ((mapGetD (parseIgnoreDirectives units) k).map IgnoreDirective.line).Nodup := by
  have haux : ∀ (units : List SourceUnit) (m : DirectiveMap),
      (∀ k, ((mapGetD m k).map IgnoreDirective.line).Nodup) →
      ∀ k, ((mapGetD (units.foldl
          (fun byFile sourceFile =>
            let directives := parseFileDirectives sourceFile
            if directives.length > 0 then
              mapSetD byFile (normalizeFileKey sourceFile.filePath) directives
            else byFile) m) k).map IgnoreDirective.line).Nodup := by
    intro units
    induction units with
    | nil => intro m hm k; exact hm k
    | cons u rest ih =>
        intro m hm k
        rw [List.foldl_cons]
        refine ih _ ?_ k
        intro k'
        dsimp only
        by_cases hlen : (parseFileDirectives u).length > 0
        · rw [if_pos hlen]
          by_cases hk : k' = normalizeFileKey u.filePath
          · subst hk
            rw [mapGetD_mapSetD_self]
            have hpw := parseDirectivesFrom_pairwise u.textLines 0
            rw [show parseFileDirectives u = parseDirectivesFrom 0 u.textLines from rfl]
            rw [List.Nodup, List.pairwise_map]
            exact hpw.imp fun h => Nat.ne_of_lt h
          · rw [mapGetD_mapSetD_other _ _ _ _ hk]
            exact hm k'
        · rw [if_neg hlen]
          exact hm k'
  intro units k
  have h0 : ∀ k, ((mapGetD ([] : DirectiveMap) k).map IgnoreDirective.line).Nodup := by
    intro k; simp [mapGetD, List.find?]
  exact haux units [] h0 k

/-- At-most-once, as distinctness of the (file key, annotation line) pairs
recorded in the ignored output. -/
theorem resolveGo_ignored_pairs_nodup :
    ∀ (l : List Finding) (dm : DirectiveMap) (recorded : List (String × Nat)),
      (∀ k, ((mapGetD dm k).map IgnoreDirective.line).Nodup) →
      (∀ p ∈ recorded, ∃ d ∈ mapGetD dm p.1, d.line = p.2 ∧ d.consumed = true) →
      recorded.Nodup →
      (recorded ++ (resolveGo dm l).2.2.map
          (fun ig => (normalizeFileKey ig.finding.file, ig.annotationLine))).Nodup := by
  intro l
  induction l with
  | nil =>
      intro dm recorded _ _ hrec
      simpa [resolveGo] using hrec
  | cons f rest ih =>
      intro dm recorded hl hinv hrec
      rw [resolveGo_cons]
      cases hc : consumeFirst f (mapGetD dm (normalizeFileKey f.file)) with
      | none => exact ih dm recorded hl hinv hrec
      | some p =>
          obtain ⟨m, ds'⟩ := p
          obtain ⟨hmatch, hmem⟩ := consumeFirst_matches hc
          have hmc : m.consumed = false := ((directiveMatches_iff f m).mp hmatch).1
          have hnotin : (normalizeFileKey f.file, m.line) ∉ recorded := by
            intro hin
            obtain ⟨d, hd, hdl, hdc⟩ := hinv _ hin
            have hde : d = m :=
              List.inj_on_of_nodup_map (hl (normalizeFileKey f.file)) hd hmem hdl
            rw [hde, hmc] at hdc
            exact Bool.noConfusion hdc
          simp only [List.map_cons]
          rw [show recorded
                ++ (normalizeFileKey f.file, m.line)
                  :: (resolveGo (mapSetD dm (normalizeFileKey f.file) ds') rest).2.2.map
                      (fun ig => (normalizeFileKey ig.finding.file, ig.annotationLine))
              = (recorded ++ [(normalizeFileKey f.file, m.line)])
                ++ (resolveGo (mapSetD dm (normalizeFileKey f.file) ds') rest).2.2.map
                    (fun ig => (normalizeFileKey ig.finding.file, ig.annotationLine))
            from by rw [List.append_assoc]; rfl]
          refine ih (mapSetD dm (normalizeFileKey f.file) ds')
            (recorded ++ [(normalizeFileKey f.file, m.line)]) ?_ ?_ ?_
          · intro k
            by_cases hk : k = normalizeFileKey f.file
            · subst hk
              rw [mapGetD_mapSetD_self, consumeFirst_lines_eq hc]
              exact hl _
            · rw [mapGetD_mapSetD_other _ _ _ _ hk]
              exact hl k
          · intro p hp
            rcases List.mem_append.mp hp with hp | hp
            · obtain ⟨d, hd, hdl, hdc⟩ := hinv _ hp
              by_cases hk : p.1 = normalizeFileKey f.file
              · rw [hk] at hd ⊢
                rw [mapGetD_mapSetD_self]
                exact ⟨d, consumeFirst_keeps_consumed hc d hd hdc, hdl, hdc⟩
              · rw [mapGetD_mapSetD_other _ _ _ _ hk]
                exact ⟨d, hd, hdl, hdc⟩
            · rw [List.mem_singleton.mp hp]
              rw [mapGetD_mapSetD_self]
              exact ⟨{ m with consumed := true }, consumeFirst_new_consumed hc, rfl, rfl⟩
          · rw [List.nodup_append]
            exact ⟨hrec, List.nodup_singleton _, by
              intro x hx hx'
              rw [List.mem_singleton.mp hx'] at hx
              exact hnotin hx⟩

/-- Every ignored finding is justified by a directive of the original
parsed map: same normalized file, same rule id, directive line strictly
before the finding line, and the recorded reason and annotation line are
the directive's. -/
theorem resolveGo_ignored_sourced :
    ∀ (l : List Finding) (dm dm0 : DirectiveMap),
      (∀ k, (mapGetD dm k).map (fun d => (d.ruleId, d.line, d.reason))
          = (mapGetD dm0 k).map (fun d => (d.ruleId, d.line, d.reason))) →
      ∀ ig ∈ (resolveGo dm l).2.2,
        ∃ d ∈ mapGetD dm0 (normalizeFileKey ig.finding.file),
          d.ruleId = ig.finding.rule_id ∧ d.line = ig.annotationLine
            ∧ d.reason = ig.reason ∧ d.line < ig.finding.line := by
  intro l
  induction l with
  | nil =>
      intro dm dm0 hsim ig hig
      simp [resolveGo] at hig
  | cons f rest ih =>
      intro dm dm0 hsim ig hig
      rw [resolveGo_cons] at hig
      cases hc : consumeFirst f (mapGetD dm (normalizeFileKey f.file)) with
      | none =>
          rw [hc] at hig
          exact ih dm dm0 hsim ig hig
      | some p =>
          obtain ⟨m, ds'⟩ := p
          rw [hc] at hig
          dsimp only at hig
          rcases List.mem_cons.mp hig with rfl | hig
          · obtain ⟨hmatch, hmem⟩ := consumeFirst_matches hc
            obtain ⟨_, hrid, hline⟩ := (directiveMatches_iff f m).mp hmatch
            have hstrip : (m.ruleId, m.line, m.reason)
                ∈ (mapGetD dm0 (normalizeFileKey f.file)).map
                    (fun d => (d.ruleId, d.line, d.reason)) := by
              rw [← hsim]
              exact List.mem_map_of_mem _ hmem
            obtain ⟨d, hd, heq⟩ := List.mem_map.mp hstrip
            have h1 : d.ruleId = m.ruleId := congrArg Prod.fst heq
            have h2 : d.line = m.line := congrArg (fun t => t.2.1) heq
            have h3 : d.reason = m.reason := congrArg (fun t => t.2.2) heq
            exact ⟨d, hd, h1.trans hrid, h2, h3, h2 ▸ hline⟩
          · refine ih (mapSetD dm (normalizeFileKey f.file) ds') dm0 ?_ ig hig
            intro k
            by_cases hk : k = normalizeFileKey f.file
            · subst hk
              rw [mapGetD_mapSetD_self, consumeFirst_strip_eq hc]
              exact hsim _
            · rw [mapGetD_mapSetD_other _ _ _ _ hk]
              exact hsim k

/-- C2: for every set of parsed ignore directives and every finding list,
`k` directives suppress at most `k` findings; every suppressed finding is
matched by a directive of its normalized file with the same rule id and a
strictly smaller line (whose reason and line are recorded); and no two
suppressions share a directive (at most one suppression per directive). -/
theorem c2_ignore_at_most_once :
    ∀ (units : List SourceUnit) (findings : List Finding),
      (applyIgnoreAnnotations units findings).2.length
          ≤ totalDirectives (parseIgnoreDirectives units)
      ∧ (∀ ig ∈ (applyIgnoreAnnotations units findings).2,
          ∃ d ∈ mapGetD (parseIgnoreDirectives units) (normalizeFileKey ig.finding.file),
            d.ruleId = ig.finding.rule_id ∧ d.line = ig.annotationLine
              ∧ d.reason = ig.reason ∧ d.line < ig.finding.line)
      ∧ ((applyIgnoreAnnotations units findings).2.map
          (fun ig => (normalizeFileKey ig.finding.file, ig.annotationLine))).Nodup := by
  intro units findings
  refine ⟨?_, ?_, ?_⟩
  · have hcount := resolveGo_count (sortFindings findings) (parseIgnoreDirectives units)
    have hle := unconsumedCount_le_totalDirectives (parseIgnoreDirectives units)
    rw [show (applyIgnoreAnnotations units findings).2
        = (resolveGo (parseIgnoreDirectives units) (sortFindings findings)).2.2 from rfl]
    omega
  · intro ig hig
    exact resolveGo_ignored_sourced (sortFindings findings) (parseIgnoreDirectives units)
      (parseIgnoreDirectives units) (fun _ => rfl) ig hig
  · have := resolveGo_ignored_pairs_nodup (sortFindings findings)
      (parseIgnoreDirectives units) [] (parseIgnoreDirectives_lines_nodup units)
      (fun p hp => absurd hp (List.not_mem_nil p)) List.nodup_nil
    simpa using this

/-! ## C8: rule execution order -/

/-- Inserting below every element is a cons. -/
theorem orderedInsert_of_forall_le
    (x : Finding) :
    ∀ m : List Finding, (∀ z ∈ m, findingLE x z) →
      List.orderedInsert findingLE x m = x :: m := by
  intro m hm
  cases m with
  | nil => rfl
  | cons z zs =>
      rw [List.orderedInsert, if_pos (hm z (List.mem_cons_self z zs))]

/-- Filtering commutes with ordered insertion into a sorted list. -/
theorem filter_orderedInsert (p : Finding → Bool) (x : Finding) :
    ∀ l : List Finding, l.Sorted findingLE →
      (List.orderedInsert findingLE x l).filter p
        = if p x then List.orderedInsert findingLE x (l.filter p) else l.filter p := by
  intro l
  induction l with
  | nil =>
      intro _
      by_cases hx : p x = true
      · rw [if_pos hx]
        simp [List.orderedInsert, hx]
      · rw [if_neg hx]
        simp only [List.orderedInsert, List.filter_nil]
        rw [List.filter_cons_of_neg hx, List.filter_nil]
  | cons y ys ih =>
      intro hsorted
      have hys : ys.Sorted findingLE := hsorted.of_cons
      by_cases hxy : findingLE x y
      · rw [show List.orderedInsert findingLE x (y :: ys) = x :: y :: ys from by
          rw [List.orderedInsert, if_pos hxy]]
        by_cases hx : p x = true
        · rw [if_pos hx, List.filter_cons_of_pos hx]
          rw [orderedInsert_of_forall_le x ((y :: ys).filter p)]
          intro z hz
          rcases List.mem_cons.mp (List.mem_of_mem_filter hz) with rfl | hz'
          · exact hxy
          · exact IsTrans.trans x y z hxy (List.rel_of_sorted_cons hsorted z hz')
        · rw [if_neg hx, List.filter_cons_of_neg hx]
      · rw [show List.orderedInsert findingLE x (y :: ys)
            = y :: List.orderedInsert findingLE x ys from by
          rw [List.orderedInsert, if_neg hxy]]
        by_cases hy : p y = true
        · rw [List.filter_cons_of_pos hy, ih hys]
          by_cases hx : p x = true
          · rw [if_pos hx, if_pos hx]
            rw [List.filter_cons_of_pos hy]
            rw [show List.orderedInsert findingLE x (y :: ys.filter p)
                = y :: List.orderedInsert findingLE x (ys.filter p) from by
              rw [List.orderedInsert, if_neg hxy]]
          · rw [if_neg hx, if_neg hx, List.filter_cons_of_pos hy]
        · rw [List.filter_cons_of_neg hy, ih hys]
          by_cases hx : p x = true
          · rw [if_pos hx, if_pos hx, List.filter_cons_of_neg hy]
          · rw [if_neg hx, if_neg hx, List.filter_cons_of_neg hy]

/-- Filtering commutes with the stable sort. -/
theorem filter_sortFindings (p : Finding → Bool) :
    ∀ l : List Finding, (sortFindings l).filter p = sortFindings (l.filter p) := by
  intro l
  induction l with
  | nil => rfl
  | cons x xs ih =>
      show (List.orderedInsert findingLE x (List.insertionSort findingLE xs)).filter p = _
      have ih' : (List.insertionSort findingLE xs).filter p
          = List.insertionSort findingLE (xs.filter p) := ih
      rw [filter_orderedInsert p x _ (List.sorted_insertionSort findingLE xs), ih']
      by_cases hx : p x = true
      · rw [if_pos hx, List.filter_cons_of_pos hx]
        rfl
      · rw [if_neg hx, List.filter_cons_of_neg hx]
        rfl

/-- Projecting the concatenated rule findings by rule id selects exactly
the findings of the rules with that id. -/
theorem byRule_flatMap (ctx : ScanContext) (ruleId : String) :
    ∀ rules : List ARule,
      (∀ r ∈ rules, ∀ f ∈ r.run ctx, f.rule_id = r.id) →
      byRule ruleId (rules.flatMap fun r => r.run ctx)
        = (rules.filter fun r => r.id = ruleId).flatMap fun r => r.run ctx := by
  intro rules
  induction rules with
  | nil => intro _; rfl
  | cons r rest ih =>
      intro h1
      rw [List.flatMap_cons]
      rw [show byRule ruleId (r.run ctx ++ rest.flatMap fun r => r.run ctx)
          = byRule ruleId (r.run ctx) ++ byRule ruleId (rest.flatMap fun r => r.run ctx)
        from List.filter_append _ _]
      rw [ih fun r hr => h1 r (List.mem_cons_of_mem _ hr)]
      by_cases hid : r.id = ruleId
      · rw [List.filter_cons_of_pos (by simp [hid]), List.flatMap_cons]
        congr 1
        rw [byRule, List.filter_eq_self]
        intro f hf
        simp [h1 r (List.mem_cons_self r rest) f hf, hid]
      · rw [List.filter_cons_of_neg (by simp [hid])]
        rw [show byRule ruleId (r.run ctx) = [] from by
          rw [byRule, List.filter_eq_nil_iff]
          intro f hf
          simp [h1 r (List.mem_cons_self r rest) f hf, hid]]
        rfl

/-- With pairwise-distinct rule ids, at most one rule matches an id. -/
theorem filter_id_length_le_one :
    ∀ (rules : List ARule) (ruleId : String),
      (rules.map ARule.id).Nodup →
      (rules.filter fun r => r.id = ruleId).length ≤ 1 := by
  intro rules
  induction rules with
  | nil => intro ruleId _; simp
  | cons r rest ih =>
      intro ruleId hnd
      rw [List.map_cons, List.nodup_cons] at hnd
      by_cases hid : r.id = ruleId
      · rw [List.filter_cons_of_pos (by simp [hid])]
        rw [show rest.filter (fun r => r.id = ruleId) = [] from by
          rw [List.filter_eq_nil_iff]
          intro x hx hxid
          exact hnd.1 (by
            rw [hid, ← of_decide_eq_true hxid]
            exact List.mem_map_of_mem _ hx)]
        simp
      · rw [List.filter_cons_of_neg (by simp [hid])]
        exact ih ruleId hnd.2

/-- Permuted lists with at most one element are equal. -/
theorem perm_eq_of_length_le_one {α : Type} :
    ∀ {l l' : List α}, l.Perm l' → l'.length ≤ 1 → l = l' := by
  intro l l' hp hlen
  cases l' with
  | nil => exact hp.eq_nil
  | cons a rest =>
      cases rest with
      | nil => exact List.perm_singleton.mp hp
      | cons b rest' => simp at hlen

/-- Dedupe commutes with the by-rule projection when equal keys imply
equal rule ids. -/
theorem byRule_dedupeGo (ruleId : String) :
    ∀ (l : List Finding) (seenF seenR : List String),
      (∀ f ∈ l, ∀ g ∈ l, dedupeKey f = dedupeKey g → f.rule_id = g.rule_id) →
      (∀ f ∈ l, f.rule_id = ruleId →
        seenF.contains (dedupeKey f) = seenR.contains (dedupeKey f)) →
      byRule ruleId (dedupeGo seenF l) = dedupeGo seenR (byRule ruleId l) := by
  intro l
  induction l with
  | nil => intro seenF seenR _ _; rfl
  | cons f rest ih =>
      intro seenF seenR hk hseen
      have hkrest : ∀ g ∈ rest, ∀ g' ∈ rest, dedupeKey g = dedupeKey g' →
          g.rule_id = g'.rule_id :=
        fun g hg g' hg' => hk g (List.mem_cons_of_mem _ hg) g' (List.mem_cons_of_mem _ hg')
      rw [dedupeGo_cons]
      by_cases hρ : f.rule_id = ruleId
      · have heq := hseen f (List.mem_cons_self f rest) hρ
        rw [show byRule ruleId (f :: rest) = f :: byRule ruleId rest from
          List.filter_cons_of_pos (by simp [hρ])]
        rw [dedupeGo_cons]
        by_cases hm : seenF.contains (dedupeKey f) = true
        · rw [if_pos hm, if_pos (heq ▸ hm)]
          exact ih seenF seenR hkrest
            fun g hg hgρ => hseen g (List.mem_cons_of_mem _ hg) hgρ
        · rw [if_neg hm, if_neg (heq ▸ hm)]
          rw [show byRule ruleId (f :: dedupeGo (dedupeKey f :: seenF) rest)
              = f :: byRule ruleId (dedupeGo (dedupeKey f :: seenF) rest) from
            List.filter_cons_of_pos (by simp [hρ])]
          congr 1
          refine ih (dedupeKey f :: seenF) (dedupeKey f :: seenR) hkrest ?_
          intro g hg hgρ
          rw [List.contains_cons, List.contains_cons,
            hseen g (List.mem_cons_of_mem _ hg) hgρ]
      · rw [show byRule ruleId (f :: rest) = byRule ruleId rest from
          List.filter_cons_of_neg (by simp [hρ])]
        by_cases hm : seenF.contains (dedupeKey f) = true
        · rw [if_pos hm]
          exact ih seenF seenR hkrest
            fun g hg hgρ => hseen g (List.mem_cons_of_mem _ hg) hgρ
        · rw [if_neg hm]
          rw [show byRule ruleId (f :: dedupeGo (dedupeKey f :: seenF) rest)
              = byRule ruleId (dedupeGo (dedupeKey f :: seenF) rest) from
            List.filter_cons_of_neg (by simp [hρ])]
          refine ih (dedupeKey f :: seenF) seenR hkrest ?_
          intro g hg hgρ
          rw [List.contains_cons]
          have hne : (dedupeKey g == dedupeKey f) = false := by
            rw [beq_eq_false_iff_ne]
            intro hkey
            exact hρ (((hk f (List.mem_cons_self f rest)
              g (List.mem_cons_of_mem _ hg)) hkey.symm).trans hgρ)
          rw [hne]
          simpa using hseen g (List.mem_cons_of_mem _ hg) hgρ

/-- For a finding of the given rule, `consumeFirst` is determined by the
rule's own directives. -/
theorem consumeFirst_dirView (f : Finding) (ruleId : String) (hρ : f.rule_id = ruleId) :
    ∀ ds : List IgnoreDirective,
      (consumeFirst f ds).map (fun p => (p.1, dirView ruleId p.2))
        = consumeFirst f (dirView ruleId ds) := by
  intro ds
  induction ds with
  | nil => rfl
  | cons d ds ih =>
      by_cases hdρ : d.ruleId = ruleId
      · rw [show dirView ruleId (d :: ds) = d :: dirView ruleId ds from
          List.filter_cons_of_pos (by simp [hdρ])]
        rw [consumeFirst_cons, consumeFirst_cons]
        by_cases hm : directiveMatches f d = true
        · rw [if_pos hm, if_pos hm]
          simp only [Option.map_some']
          rw [show dirView ruleId ({ d with consumed := true } :: ds)
              = { d with consumed := true } :: dirView ruleId ds from
            List.filter_cons_of_pos (by simp [hdρ])]
        · rw [if_neg hm, if_neg hm, ← ih]
          cases consumeFirst f ds with
          | none => rfl
          | some p =>
              obtain ⟨m, ds'⟩ := p
              simp only [Option.map_some']
              rw [show dirView ruleId (d :: ds') = d :: dirView ruleId ds' from
                List.filter_cons_of_pos (by simp [hdρ])]
      · have hm : directiveMatches f d = false := by
          cases hx : directiveMatches f d
          · rfl
          · exact absurd (((directiveMatches_iff f d).mp hx).2.1.trans hρ) hdρ
        rw [show dirView ruleId (d :: ds) = dirView ruleId ds from
          List.filter_cons_of_neg (by simp [hdρ])]
        rw [consumeFirst_cons, if_neg (by simp [hm]), ← ih]
        cases consumeFirst f ds with
        | none => rfl
        | some p =>
            obtain ⟨m, ds'⟩ := p
            simp only [Option.map_some']
            rw [show dirView ruleId (d :: ds') = dirView ruleId ds' from
              List.filter_cons_of_neg (by simp [hdρ])]

/-- Consuming a directive of another rule leaves a rule's view unchanged. -/
theorem consumeFirst_dirView_other (ruleId : String) :
    ∀ {ds ds' : List IgnoreDirective} {f : Finding} {m : IgnoreDirective},
      consumeFirst f ds = some (m, ds') → ruleId ≠ f.rule_id →
      dirView ruleId ds' = dirView ruleId ds := by
  intro ds
  induction ds with
  | nil => intro ds' f m h; exact absurd h (by simp [consumeFirst])
  | cons d rest ih =>
      intro ds' f m h hne
      rw [consumeFirst_cons] at h
      by_cases hm : directiveMatches f d = true
      · rw [if_pos hm] at h
        injection h with h
        injection h with h1 h2
        subst h2
        have hdid : d.ruleId = f.rule_id := ((directiveMatches_iff f d).mp hm).2.1
        have hd1 : ¬ (d.ruleId = ruleId) := fun hh => hne (hh.symm.trans hdid)
        rw [show dirView ruleId ({ d with consumed := true } :: rest)
            = dirView ruleId rest from List.filter_cons_of_neg (by simp [hd1])]
        rw [show dirView ruleId (d :: rest) = dirView ruleId rest from
          List.filter_cons_of_neg (by simp [hd1])]
      · rw [if_neg hm] at h
        cases hc : consumeFirst f rest with
        | none => rw [hc] at h; exact Option.noConfusion h
        | some p =>
            obtain ⟨m', rest'⟩ := p
            rw [hc] at h
            injection h with h
            injection h with h1 h2
            subst h2
            by_cases hd1 : d.ruleId = ruleId
            · rw [show dirView ruleId (d :: rest') = d :: dirView ruleId rest' from
                List.filter_cons_of_pos (by simp [hd1])]
              rw [show dirView ruleId (d :: rest) = d :: dirView ruleId rest from
                List.filter_cons_of_pos (by simp [hd1])]
              rw [ih hc hne]
            · rw [show dirView ruleId (d :: rest') = dirView ruleId rest' from
                List.filter_cons_of_neg (by simp [hd1])]
              rw [show dirView ruleId (d :: rest) = dirView ruleId rest from
                List.filter_cons_of_neg (by simp [hd1])]
              exact ih hc hne

/-- The resolver commutes with the by-rule projection: processing only one
rule's findings against the same directive map (as far as that rule's
directives go) gives that rule's slice of the outputs. -/
theorem resolveGo_byRule (ruleId : String) :
    ∀ (l : List Finding) (dmF dmR : DirectiveMap),
      (∀ k, dirView ruleId (mapGetD dmF k) = dirView ruleId (mapGetD dmR k)) →
      byRule ruleId (resolveGo dmF l).2.1 = (resolveGo dmR (byRule ruleId l)).2.1
        ∧ byRuleIgnored ruleId (resolveGo dmF l).2.2
            = (resolveGo dmR (byRule ruleId l)).2.2 := by
  intro l
  induction l with
  | nil => intro dmF dmR _; exact ⟨rfl, rfl⟩
  | cons f rest ih =>
      intro dmF dmR hrel
      by_cases hρ : f.rule_id = ruleId
      · have hcomb : (consumeFirst f (mapGetD dmF (normalizeFileKey f.file))).map
              (fun p => (p.1, dirView ruleId p.2))
            = (consumeFirst f (mapGetD dmR (normalizeFileKey f.file))).map
              (fun p => (p.1, dirView ruleId p.2)) := by
          rw [consumeFirst_dirView f ruleId hρ, consumeFirst_dirView f ruleId hρ,
            hrel (normalizeFileKey f.file)]
        rw [show byRule ruleId (f :: rest) = f :: byRule ruleId rest from
          List.filter_cons_of_pos (by simp [hρ])]
        rw [resolveGo_cons, resolveGo_cons]
        cases hcF : consumeFirst f (mapGetD dmF (normalizeFileKey f.file)) with
        | none =>
            cases hcR : consumeFirst f (mapGetD dmR (normalizeFileKey f.file)) with
            | none =>
                obtain ⟨ih1, ih2⟩ := ih dmF dmR hrel
                dsimp only
                constructor
                · rw [show byRule ruleId (f :: (resolveGo dmF rest).2.1)
                      = f :: byRule ruleId (resolveGo dmF rest).2.1 from
                    List.filter_cons_of_pos (by simp [hρ])]
                  rw [ih1]
                · exact ih2
            | some pR =>
                rw [hcF, hcR] at hcomb
                simp at hcomb
        | some pF =>
            obtain ⟨mF, dsF⟩ := pF
            cases hcR : consumeFirst f (mapGetD dmR (normalizeFileKey f.file)) with
            | none =>
                rw [hcF, hcR] at hcomb
                simp at hcomb
            | some pR =>
                obtain ⟨mR, dsR⟩ := pR
                rw [hcF, hcR] at hcomb
                simp only [Option.map_some'] at hcomb
                injection hcomb with hcomb
                have hm : mF = mR := congrArg Prod.fst hcomb
                have hview : dirView ruleId dsF = dirView ruleId dsR :=
                  congrArg Prod.snd hcomb
                subst hm
                obtain ⟨ih1, ih2⟩ := ih
                  (mapSetD dmF (normalizeFileKey f.file) dsF)
                  (mapSetD dmR (normalizeFileKey f.file) dsR)
                  (by
                    intro k
                    by_cases hk : k = normalizeFileKey f.file
                    · subst hk
                      rw [mapGetD_mapSetD_self, mapGetD_mapSetD_self]
                      exact hview
                    · rw [mapGetD_mapSetD_other _ _ _ _ hk,
                        mapGetD_mapSetD_other _ _ _ _ hk]
                      exact hrel k)
                dsimp only
                constructor
                · exact ih1
                · rw [show byRuleIgnored ruleId
                      (({ finding := f, reason := mF.reason, annotationLine := mF.line }
                        : IgnoredFinding)
                        :: (resolveGo (mapSetD dmF (normalizeFileKey f.file) dsF)
                            rest).2.2)
                      = ({ finding := f, reason := mF.reason, annotationLine := mF.line }
                          : IgnoredFinding)
                        :: byRuleIgnored ruleId
                            (resolveGo (mapSetD dmF (normalizeFileKey f.file) dsF)
                              rest).2.2 from
                    List.filter_cons_of_pos (by simp [hρ])]
                  rw [ih2]
      · rw [show byRule ruleId (f :: rest) = byRule ruleId rest from
          List.filter_cons_of_neg (by simp [hρ])]
        rw [resolveGo_cons]
        cases hcF : consumeFirst f (mapGetD dmF (normalizeFileKey f.file)) with
        | none =>
            obtain ⟨ih1, ih2⟩ := ih dmF dmR hrel
            dsimp only
            constructor
            · rw [show byRule ruleId (f :: (resolveGo dmF rest).2.1)
                  = byRule ruleId (resolveGo dmF rest).2.1 from
                List.filter_cons_of_neg (by simp [hρ])]
              exact ih1
            · exact ih2
        | some pF =>
            obtain ⟨mF, dsF⟩ := pF
            obtain ⟨ih1, ih2⟩ := ih
              (mapSetD dmF (normalizeFileKey f.file) dsF) dmR
              (by
                intro k
                by_cases hk : k = normalizeFileKey f.file
                · subst hk
                  rw [mapGetD_mapSetD_self]
                  rw [consumeFirst_dirView_other ruleId hcF (fun hh => hρ hh.symm)]
                  exact hrel _
                · rw [mapGetD_mapSetD_other _ _ _ _ hk]
                  exact hrel k)
            dsimp only
            constructor
            · exact ih1
            · rw [show byRuleIgnored ruleId
                  (({ finding := f, reason := mF.reason, annotationLine := mF.line }
                    : IgnoredFinding)
                    :: (resolveGo (mapSetD dmF (normalizeFileKey f.file) dsF) rest).2.2)
                  = byRuleIgnored ruleId
                      (resolveGo (mapSetD dmF (normalizeFileKey f.file) dsF) rest).2.2
                from List.filter_cons_of_neg (by simp [hρ])]
              exact ih2

/-- Lists with equal projections to every key class are permutations. -/
theorem perm_of_filter_classes {α : Type} [DecidableEq α] (key : α → String) :
    ∀ (l₁ l₂ : List α),
      (∀ ruleId, l₁.filter (fun a => key a = ruleId) = l₂.filter (fun a => key a = ruleId)) →
      l₁.Perm l₂ := by
  intro l₁ l₂ h
  rw [List.perm_iff_count]
  intro x
  have hx := congrArg (List.count x) (h (key x))
  rw [List.count_filter (by simp), List.count_filter (by simp)] at hx
  exact hx

/-- `byRule` commutes with the stable sort. -/
theorem byRule_sortFindings (ruleId : String) (l : List Finding) :
    byRule ruleId (sortFindings l) = sortFindings (byRule ruleId l) := by
  unfold byRule
  exact filter_sortFindings _ l

/-- C8 counterexample: permuting the AI001/AI003 rule order changes the
final output (the two findings share a file and line, and the sort keeps
their execution order on the tie). -/
theorem c8_counterexample_rule_order_changes_output :
    [ruleLlmBeforeAuth, rulePromptInjectionConcat].Perm
        [rulePromptInjectionConcat, ruleLlmBeforeAuth]
      ∧ runPipeline exTieCtx [ruleLlmBeforeAuth, rulePromptInjectionConcat]
          ≠ runPipeline exTieCtx [rulePromptInjectionConcat, ruleLlmBeforeAuth] :=
  ⟨List.Perm.swap _ _ _, by decide⟩

/-- C8 amended: when every rule tags its findings with its own id, rule
ids are pairwise distinct, and equal dedupe keys imply equal rule ids
(true of the actual rule set, whose ids contain no `|`), permuting the
rule list leaves the active findings and the ignored findings unchanged
as multisets; only the relative order of findings that share a
`(normalized_file, line)` sort key across different rules can change. -/
theorem c8_amended_rule_order_invariance :
    ∀ (context : ScanContext) (rules rulesPermuted : List ARule),
      rulesPermuted.Perm rules →
      (∀ r ∈ rules, ∀ f ∈ r.run context, f.rule_id = r.id) →
      (rules.map ARule.id).Nodup →
      (∀ f ∈ rules.flatMap (fun r => r.run context),
        ∀ g ∈ rules.flatMap (fun r => r.run context),
          dedupeKey f = dedupeKey g → f.rule_id = g.rule_id) →
      (runPipeline context rulesPermuted).1.Perm (runPipeline context rules).1
        ∧ (runPipeline context rulesPermuted).2.Perm (runPipeline context rules).2 := by
  intro ctx rules rules' hperm h1 hnd hk
  have h1' : ∀ r ∈ rules', ∀ f ∈ r.run ctx, f.rule_id = r.id :=
    fun r hr => h1 r (hperm.mem_iff.mp hr)
  have hmemA : ∀ f, f ∈ rules'.flatMap (fun r => r.run ctx)
      ↔ f ∈ rules.flatMap (fun r => r.run ctx) := by
    intro f
    simp only [List.mem_flatMap]
    constructor
    · rintro ⟨r, hr, hf⟩; exact ⟨r, hperm.mem_iff.mp hr, hf⟩
    · rintro ⟨r, hr, hf⟩; exact ⟨r, hperm.mem_iff.mpr hr, hf⟩
  have hk' : ∀ f ∈ rules'.flatMap (fun r => r.run ctx),
      ∀ g ∈ rules'.flatMap (fun r => r.run ctx),
        dedupeKey f = dedupeKey g → f.rule_id = g.rule_id :=
    fun f hf g hg => hk f ((hmemA f).mp hf) g ((hmemA g).mp hg)
  have hbyA : ∀ ruleId, byRule ruleId (rules'.flatMap fun r => r.run ctx)
      = byRule ruleId (rules.flatMap fun r => r.run ctx) := by
    intro ruleId
    rw [byRule_flatMap ctx ruleId rules' h1', byRule_flatMap ctx ruleId rules h1]
    congr 1
    exact perm_eq_of_length_le_one (hperm.filter _)
      (filter_id_length_le_one rules ruleId hnd)
  have hdedupe : ∀ ruleId,
      byRule ruleId (dedupeFindings (rules'.flatMap fun r => r.run ctx))
        = byRule ruleId (dedupeFindings (rules.flatMap fun r => r.run ctx)) := by
    intro ruleId
    rw [show dedupeFindings (rules'.flatMap fun r => r.run ctx)
        = dedupeGo [] (rules'.flatMap fun r => r.run ctx) from rfl]
    rw [show dedupeFindings (rules.flatMap fun r => r.run ctx)
        = dedupeGo [] (rules.flatMap fun r => r.run ctx) from rfl]
    rw [byRule_dedupeGo ruleId _ [] [] hk' (fun _ _ _ => rfl),
      byRule_dedupeGo ruleId _ [] [] hk (fun _ _ _ => rfl),
      hbyA ruleId]
  have hsorted : ∀ ruleId,
      byRule ruleId (sortFindings (dedupeFindings (rules'.flatMap fun r => r.run ctx)))
        = byRule ruleId
            (sortFindings (dedupeFindings (rules.flatMap fun r => r.run ctx))) := by
    intro ruleId
    rw [byRule_sortFindings, byRule_sortFindings, hdedupe ruleId]
  have hfinal : ∀ ruleId,
      byRule ruleId (runPipeline ctx rules').1 = byRule ruleId (runPipeline ctx rules).1
        ∧ byRuleIgnored ruleId (runPipeline ctx rules').2
            = byRuleIgnored ruleId (runPipeline ctx rules).2 := by
    intro ruleId
    have e1 := resolveGo_byRule ruleId
      (sortFindings (dedupeFindings (rules'.flatMap fun r => r.run ctx)))
      (parseIgnoreDirectives ctx.sourceFiles) (parseIgnoreDirectives ctx.sourceFiles)
      (fun _ => rfl)
    have e2 := resolveGo_byRule ruleId
      (sortFindings (dedupeFindings (rules.flatMap fun r => r.run ctx)))
      (parseIgnoreDirectives ctx.sourceFiles) (parseIgnoreDirectives ctx.sourceFiles)
      (fun _ => rfl)
    constructor
    · rw [show (runPipeline ctx rules').1
          = (resolveGo (parseIgnoreDirectives ctx.sourceFiles)
              (sortFindings (dedupeFindings (rules'.flatMap fun r => r.run ctx)))).2.1
        from rfl]
      rw [show (runPipeline ctx rules).1
          = (resolveGo (parseIgnoreDirectives ctx.sourceFiles)
              (sortFindings (dedupeFindings (rules.flatMap fun r => r.run ctx)))).2.1
        from rfl]
      rw [e1.1, e2.1, hsorted ruleId]
    · rw [show (runPipeline ctx rules').2
          = (resolveGo (parseIgnoreDirectives ctx.sourceFiles)
              (sortFindings (dedupeFindings (rules'.flatMap fun r => r.run ctx)))).2.2
        from rfl]
      rw [show (runPipeline ctx rules).2
          = (resolveGo (parseIgnoreDirectives ctx.sourceFiles)
              (sortFindings (dedupeFindings (rules.flatMap fun r => r.run ctx)))).2.2
        from rfl]
      rw [e1.2, e2.2, hsorted ruleId]
  constructor
  · exact perm_of_filter_classes Finding.rule_id _ _ (fun ruleId => (hfinal ruleId).1)
  · have h2 : ∀ ruleId, (runPipeline ctx rules').2.filter
        (fun ig => decide (ig.finding.rule_id = ruleId))
        = (runPipeline ctx rules).2.filter
            (fun ig => decide (ig.finding.rule_id = ruleId)) :=
      fun ruleId => (hfinal ruleId).2
    exact perm_of_filter_classes (fun ig => ig.finding.rule_id) _ _ h2

/-- C8 amended witness: the concrete two-rule scenario of the
counterexample still yields multiset-equal outputs under both orders. -/
theorem c8_amended_witness :
    (runPipeline exTieCtx [ruleLlmBeforeAuth, rulePromptInjectionConcat]).1.Perm
        (runPipeline exTieCtx [rulePromptInjectionConcat, ruleLlmBeforeAuth]).1
      ∧ (runPipeline exTieCtx [ruleLlmBeforeAuth, rulePromptInjectionConcat]).2.Perm
          (runPipeline exTieCtx [rulePromptInjectionConcat, ruleLlmBeforeAuth]).2 :=
  c8_amended_rule_order_invariance exTieCtx
    [rulePromptInjectionConcat, ruleLlmBeforeAuth]
    [ruleLlmBeforeAuth, rulePromptInjectionConcat]
    (List.Perm.swap _ _ _) (by decide) (by decide) (by decide)
